import Mathlib

/-!
# Verification of the 121-spacetime-crawler4py crawler core

A shallow embedding in Lean 4 of the crawler's two core subsystems —
the URL model and content filter (`src/crawler/scraper.py`) and the
threaded frontier scheduler (`src/crawler/frontier.py`) — together with
theorems checking the repository specification's claims against the
embedded code.

Conventions of the embedding:
* Python strings are Lean `String`s (the crawler only handles ASCII
  URLs and tokens, so ASCII case-folding is faithful).
* Python's mutable objects become explicit state records threaded
  through the functions (`ScrState` for the `Scraper`, `FState` for the
  `ThreadedFrontier`).
* `time.time()` samples are explicit `Int` parameters of each step; a
  trace of frontier operations is a list of events, each carrying the
  time samples the corresponding Python call would draw, with a
  monotonicity hypothesis tying the samples to real time.
* External dependencies (`urllib.parse.urlparse`, `hashlib` digests,
  the `utils` helpers `normalize`/`get_urlhash`, and the parsed HTML
  produced by BeautifulSoup) are modelled: `urlparse` is implemented
  directly for absolute URLs, while hash functions and parse output are
  parameters, since only their determinism matters to the claims.
-/

namespace Crawl

/-! ## String utilities (models of Python `str` operations) -/

/-- Split a character list at the first occurrence of `c`.
Returns the characters before it, and `some` of the characters after it
(`none` when `c` does not occur). -/
def splitFirst (c : Char) : List Char → List Char × Option (List Char)
  | [] => ([], none)
  | x :: xs =>
    if x = c then ([], some xs)
    else
      let r := splitFirst c xs
      (x :: r.1, r.2)

/-- Take characters until one of `stops` is reached; returns
`(taken, rest)` where `rest` still starts with the stop character. -/
def takeUntil (stops : List Char) : List Char → List Char × List Char
  | [] => ([], [])
  | x :: xs =>
    if x ∈ stops then ([], x :: xs)
    else
      let r := takeUntil stops xs
      (x :: r.1, r.2)

/-- Python `sub in s` (substring containment). -/
def hasSubstr (s sub : String) : Bool :=
  (List.range (s.data.length + 1)).any fun i => sub.data.isPrefixOf (s.data.drop i)

/-- Python `s.strip(c)` for a single character `c`. -/
def stripChar (c : Char) (s : String) : String :=
  ⟨((s.data.dropWhile (· = c)).reverse.dropWhile (· = c)).reverse⟩

/-- Python `s.split(c)` for a single-character separator. -/
def splitChar (c : Char) (s : String) : List String :=
  (s.data.splitOn c).map List.asString

/-- Python `s.removeprefix(p)`. -/
def dropPrefixStr (p s : String) : String :=
  if p.data.isPrefixOf s.data then ⟨s.data.drop p.data.length⟩ else s

/-- Python `s.lower()` (ASCII case folding, which is all the crawler needs). -/
def lowerStr (s : String) : String := ⟨s.data.map Char.toLower⟩

/-- Python `s.endswith(t)`. -/
def endsWithStr (s t : String) : Bool := t.data.isSuffixOf s.data

/-! ## Model of `urllib.parse.urlparse` (external library)

Modelled for absolute URLs as the crawler uses them: fragment split at
the first `#`, a scheme recognised before the first `:` when it is
syntactically valid, a netloc after `//` running to the next `/`, `?`
or `#`, and the query after the first `?`.  (`params` splitting and
relative-reference corner cases are not exercised by the crawler's
claims and are not modelled.) -/

structure PUrl where
  scheme : String
  netloc : String
  path : String
  query : String
  fragment : String
deriving Repr, DecidableEq

/-- Characters allowed in a URL scheme after the leading letter. -/
def isSchemeChar (c : Char) : Bool :=
  c.isAlphanum || c = '+' || c = '-' || c = '.'

/-- Recognise `scheme:` at the front of the URL, as `urlparse` does:
the part before the first `:` must be a letter followed by scheme
characters.  Returns `(scheme, rest)`. -/
def parseScheme (l : List Char) : List Char × List Char :=
  match splitFirst ':' l with
  | (before, some after) =>
    match before with
    | [] => ([], l)
    | b :: bs =>
      if b.isAlpha && (b :: bs).all isSchemeChar then (before, after) else ([], l)
  | (_, none) => ([], l)

/-- The model of `urllib.parse.urlparse`. -/
def urlparse (s : String) : PUrl :=
  let (rest0, frag) := splitFirst '#' s.data
  let fragment := (frag.getD []).asString
  let (sch, rest1) := parseScheme rest0
  let (netloc, rest2) :=
    if ['/', '/'].isPrefixOf rest1 then takeUntil ['/', '?', '#'] (rest1.drop 2)
    else ([], rest1)
  let (path, rest3) := splitFirst '?' rest2
  { scheme := sch.asString
    netloc := netloc.asString
    path := path.asString
    query := (rest3.getD []).asString
    fragment := fragment }

/-- Python `urllib`'s `.hostname` accessor on a parsed URL: the netloc
after the last `@`, before the port separator `:`, lower-cased. -/
def hostnameOf (netloc : String) : String :=
  let afterAt := ((netloc.data.reverse.takeWhile (· ≠ '@')).reverse)
  lowerStr ⟨(splitFirst ':' afterAt).1⟩

end Crawl

namespace Crawl.Scraper

open Crawl

/-! ## The `URL` class (`src/crawler/scraper.py` lines 28-73) -/

structure URL where
  url : String
  parsed : PUrl
  page : String
  subdomain : String
deriving Repr, DecidableEq

/-- `URL.valid_scheme`. -/
def valid_scheme (p : PUrl) : Bool := p.scheme = "http" || p.scheme = "https"

/-- `URL.__get_page`: full URL discarding fragment only; empty for an
invalid scheme; a single trailing `/` is stripped from the path. -/
def get_page (p : PUrl) : String :=
  if !valid_scheme p then ""
  else
    let path := if endsWithStr p.path "/" then ⟨p.path.data.dropLast⟩ else p.path
    let base := p.scheme ++ "://" ++ p.netloc ++ path
    if p.query ≠ "" then base ++ "?" ++ p.query else base

/-- `URL.__get_subdomain`: scheme + hostname; empty for an invalid scheme. -/
def get_subdomain (p : PUrl) : String :=
  if !valid_scheme p then ""
  else p.scheme ++ "://" ++ hostnameOf p.netloc

/-- `URL.__init__`: lower-cases the whole URL, parses it, and computes
the canonical page and the subdomain. -/
def mkURL (s : String) : URL :=
  let u := lowerStr s
  let p := urlparse u
  { url := u, parsed := p, page := get_page p, subdomain := get_subdomain p }

/-- `URL.__eq__` (and the identity used by `__hash__`): equality solely
on the canonical page. -/
def urlEq (a b : URL) : Bool := a.page = b.page

/-- `URL.in_domain`: the subdomain is truthy and ends with `domain`. -/
def in_domain (u : URL) (domain : String) : Bool :=
  u.subdomain ≠ "" && endsWithStr u.subdomain domain

end Crawl.Scraper

/-- C5 sanity examples (kept as `example`s; the claim theorem is below). -/
example : (Crawl.Scraper.mkURL "http://X.edu/a/").page = "http://x.edu/a" := by decide
example : (Crawl.Scraper.mkURL "http://x.edu/a#frag").page = "http://x.edu/a" := by decide
example : (Crawl.Scraper.mkURL "http://x.edu/a?q=1").page = "http://x.edu/a?q=1" := by decide

namespace Crawl.Scraper

open Crawl

/-! ## The `Link` dataclass and the `Scraper` content filter
(`src/crawler/scraper.py` lines 75-369) -/

structure Link where
  url : URL
  score : Int := 0
deriving Repr, DecidableEq

/-- `Scraper.tokenize`: lower-case and split into maximal alphanumeric
runs (the regex `[a-zA-Z0-9]+` applied to `text.lower()`). -/
def alnumRunsAux : List Char → List Char → List (List Char)
  | acc, [] => if acc = [] then [] else [acc.reverse]
  | acc, c :: cs =>
    if c.isAlphanum then alnumRunsAux (c :: acc) cs
    else (if acc = [] then [] else [acc.reverse]) ++ alnumRunsAux [] cs

def tokenize (text : String) : List String :=
  (alnumRunsAux [] (text.data.map Char.toLower)).map List.asString

/-- Python `str.isdigit` on the crawler's ASCII tokens. -/
def isDigitStr (s : String) : Bool := s ≠ "" && s.data.all Char.isDigit

/-- `Scraper.detect_trap` (a pure function of the URL; the `resp`
parameter of the Python method is unused). -/
def detect_trap (url : URL) : Bool :=
  let path := url.parsed.path
  let query := url.parsed.query
  if ["calendar", "events"].any (fun trap => hasSubstr path trap) then true
  else if ["day=", "month=", "year=", "rev=", "idx=", "rev="].any
      (fun trap => hasSubstr query trap) then true
  else if hasSubstr query "do=" && !hasSubstr query "do=show" then true
  else if path.data.count '/' > 6 then true
  else if url.url.length > 100 then true
  else
    let path_components := splitChar '/' (stripChar '/' path)
    if path_components.length ≠ path_components.dedup.length then true
    else false

/-- `Scraper.detect_exact_similar`, with the mutable set
`seen_exact_content_hashes` passed explicitly and `hashlib.sha1(·).hexdigest()`
a parameter `sha1hex`.  Returns the verdict and the updated set. -/
def detect_exact_similar (sha1hex : String → String) (seen : List String)
    (words : List String) : Bool × List String :=
  if words = [] then (false, seen)
  else
    let content_hash := sha1hex (String.join words)
    if content_hash ∈ seen then (true, seen)
    else (false, content_hash :: seen)

/-- Increment a key in an insertion-ordered association list, the model
of `d[k] = d.get(k, 0) + 1` on a Python dict. -/
def bumpKey (l : List (String × Nat)) (k : String) : List (String × Nat) :=
  match l with
  | [] => [(k, 1)]
  | (k', v) :: rest =>
    if k' = k then (k', v + 1) :: rest else (k', v) :: bumpKey rest k

/-- Token frequencies of `detect_near_similar` (`freqs` dict). -/
def buildFreqs (words : List String) : List (String × Nat) :=
  words.foldl bumpKey []

/-- The 64-entry accumulator `v` of `detect_near_similar`: for every
token, add its frequency at each bit position of the token's hash that
is 1, subtract it where the bit is 0. -/
def vVec (tokenHash : String → Nat) (freqs : List (String × Nat)) : List Int :=
  freqs.foldl
    (fun v tw =>
      v.mapIdx fun i x =>
        if (tokenHash tw.1).testBit i then x + (tw.2 : Int) else x - (tw.2 : Int))
    (List.replicate 64 0)

/-- The fingerprint: bit `i` is set iff `v[i] > 0`. -/
def simhashOf (v : List Int) : Nat :=
  (List.range 64).foldl (fun acc i => if v.getD i 0 > 0 then acc ||| (1 <<< i) else acc) 0

/-- `bin(x).count("1")`: number of 1 bits of a natural number.  Written
with a structural fuel argument (`n` itself bounds the number of
halvings) so that the kernel can evaluate it on concrete inputs. -/
def popcountAux : Nat → Nat → Nat
  | 0, _ => 0
  | fuel + 1, n => if n = 0 then 0 else n % 2 + popcountAux fuel (n / 2)

def popcount (n : Nat) : Nat := popcountAux n n

/-- Hamming distance between two fingerprints. -/
def hamming (a b : Nat) : Nat := popcount (a ^^^ b)

/-- The similarity test `1 - hamming/64 >= 0.95` of `detect_near_similar`.
Python evaluates it in binary floating point, where `hamming/64` is exact
and `0.95` rounds to a double strictly between `60/64` and `61/64`, so the
float comparison accepts exactly the same Hamming distances (0..3) as
this exact rational comparison. -/
def nearReject (f sh : Nat) : Bool :=
  decide ((1 : ℚ) - (hamming f sh : ℚ) / 64 ≥ 95 / 100)

/-- `Scraper.detect_near_similar`, with `seen_near_content_hashes`
explicit and `int(hashlib.sha1(·).hexdigest(), 16)` a parameter. -/
def detect_near_similar (tokenHash : String → Nat) (seen : List Nat)
    (words : List String) : Bool × List Nat :=
  if words = [] then (false, seen)
  else
    let freqs := buildFreqs words
    let simhash := simhashOf (vVec tokenHash freqs)
    if seen.any (fun sh => nearReject simhash sh) then (true, seen)
    else (false, simhash :: seen)

/-- The transport-level facts about a fetched page that the filter
inspects, together with the outputs of the external HTML parse
(BeautifulSoup) for that page. -/
structure PageInput where
  status : Int
  hasRaw : Bool
  contentLen : Nat
  parseOk : Bool
  text : String
  hrefs : List String
deriving Repr

/-- `Scraper.detect_large`: truthy body over 5 MiB. -/
def detect_large (p : PageInput) : Bool :=
  if !p.hasRaw || p.contentLen = 0 then false
  else p.contentLen > 5 * 1024 * 1024

/-- `Scraper.detect_low_info`: missing/empty body, or over 1 MiB with
fewer than 200 words. -/
def detect_low_info (p : PageInput) (word_count : Nat) : Bool :=
  if !p.hasRaw || p.contentLen = 0 then true
  else if p.contentLen > 1024 * 1024 && word_count < 200 then true
  else false

/-- The mutable state of a `Scraper` instance. -/
structure ScrState where
  seenUrls : List String
  seenExact : List String
  seenNear : List Nat
  wordFreq : List (String × Nat)
  subdomainFreq : List (String × Nat)
  longestUrl : Option URL
  highestWordCount : Nat
deriving Repr

def initScrState : ScrState :=
  { seenUrls := [], seenExact := [], seenNear := [], wordFreq := [],
    subdomainFreq := [], longestUrl := none, highestWordCount := 0 }

/-- `Scraper.update_analytics`.  The stop-word list lives in the
repository's `crawler/misc.py`, which is not part of the sources; it is
a parameter. -/
def update_analytics (stopwords : List String) (s : ScrState) (url : URL)
    (words : List String) (word_count : Nat) : ScrState :=
  let wf := words.foldl
    (fun acc token =>
      if token ∉ stopwords && token.length > 1 && !isDigitStr token then
        bumpKey acc token
      else acc)
    s.wordFreq
  let (hw, lu) :=
    if word_count > s.highestWordCount then (word_count, some url)
    else (s.highestWordCount, s.longestUrl)
  let sf :=
    if in_domain url "uci.edu" then bumpKey s.subdomainFreq url.subdomain
    else s.subdomainFreq
  { s with wordFreq := wf, highestWordCount := hw, longestUrl := lu,
           subdomainFreq := sf }

/-- `Scraper.get_uniquePages_num`: the size of `seen_urls`. -/
def get_uniquePages_num (s : ScrState) : Nat := s.seenUrls.length

/-- `urllib.parse.urldefrag` (model): the part before the first `#`. -/
def urldefrag (s : String) : String := ⟨(splitFirst '#' s.data).1⟩

/-- The `total_links` set construction at the end of
`extract_next_links`: deduplicate links by canonical-page equality. -/
def addLink (acc : List Link) (l : Link) : List Link :=
  if acc.any (fun x => urlEq x.url l.url) then acc else acc ++ [l]

def buildLinks (hrefs : List String) : List Link :=
  (hrefs.map (fun h => Link.mk (mkURL (urldefrag h)) 0)).foldl addLink []

/-- The external hash functions and configuration data the `Scraper`
depends on: `hashlib.sha1(·).hexdigest()`, `int(sha1hex, 16)` applied
to a token, and the stop-word list from the missing `misc.py`. -/
structure SCtx where
  sha1hex : String → String
  tokenHash : String → Nat
  stopwords : List String

/-- `Scraper.extract_next_links` (lines 297-369).  `urljoin` of each
raw href against the base URL is external; `p.hrefs` carries the joined
absolute link strings.  The result is `none` for each of the early
`return []` rejection paths and `some links` when the page is accepted
(reaches `update_analytics` and link extraction). -/
def extract_next_links (c : SCtx) (s : ScrState) (urlStr : String)
    (p : PageInput) : Option (List Link) × ScrState :=
  let url := mkURL urlStr
  if url.page ∈ s.seenUrls then (none, s)
  else
    let s1 := { s with seenUrls := url.page :: s.seenUrls }
    if p.status ≠ 200 || !p.hasRaw then (none, s1)
    else if detect_large p then (none, s1)
    else if detect_trap url then (none, s1)
    else if !p.parseOk then (none, s1)
    else
      let words := tokenize p.text
      let word_count := words.length
      let ex := detect_exact_similar c.sha1hex s1.seenExact words
      let s2 := { s1 with seenExact := ex.2 }
      if ex.1 then (none, s2)
      else
        let nr := detect_near_similar c.tokenHash s2.seenNear words
        let s3 := { s2 with seenNear := nr.2 }
        if nr.1 then (none, s3)
        else if detect_low_info p word_count then (none, s3)
        else
          let s4 := update_analytics c.stopwords s3 url words word_count
          (some (buildLinks p.hrefs), s4)

/-- Run the filter over a sequence of fetches (the state evolution a
`Scraper` instance undergoes across calls). -/
def runScraper (c : SCtx) (s : ScrState) : List (String × PageInput) → ScrState
  | [] => s
  | (u, p) :: rest => runScraper c (extract_next_links c s u p).2 rest

end Crawl.Scraper

namespace Crawl.Frontier

open Crawl

/-! ## The `ThreadedFrontier` scheduler (`src/crawler/frontier.py`)

Python `time.time()` samples appear as explicit `Int` parameters (one
per sample the Python code draws, in program order); traces carry a
monotonicity hypothesis on those samples.  `utils.normalize` and
`utils.get_urlhash` are not among the sources; they are modelled from
the spec as abstract functions (the spec only requires a stable hash of
the canonical URL), carried in the context `FCtx`. -/

/-- Python string comparison (lexicographic by code point), used by
`heapq` to break ties between tuples with equal leading components. -/
def lexLtChars : List Char → List Char → Bool
  | [], [] => false
  | [], _ :: _ => true
  | _ :: _, [] => false
  | a :: as, b :: bs => if a < b then true else if b < a then false else lexLtChars as bs

def strLt (a b : String) : Bool := lexLtChars a.data b.data

/-- A persisted `shelve` record: `mark_url_complete` writes the
2-tuple `(url, completed)`, `add_url` writes the 4-tuple
`(url, completed, score, count)`. -/
inductive SaveRec
  | short (url : String) (completed : Bool)
  | long (url : String) (completed : Bool) (score : Int) (count : Nat)
deriving Repr, DecidableEq

/-- A domain-queue entry `(-score, count, url)`. -/
structure QEntry where
  negScore : Int
  count : Nat
  url : String
deriving Repr, DecidableEq

/-- The mutable state of a `ThreadedFrontier` (all of it is accessed
under the single lock `self.lock`, so each embedded operation is one
atomic step). `save` and `domain_queues` are insertion-ordered
association lists modelling the shelve mapping and the dict of
per-domain heaps; the two heaps are modelled as multisets (lists) with
explicit minimum extraction. -/
structure FState where
  save : List (String × SaveRec)
  domain_queues : List (String × List QEntry)
  domain_heap : List (Int × String)
  domains_in_heap : List String
  entry_count : Nat
  total_count : Nat
  completed_count : Nat
  active_workers : Int
  polite : Bool
deriving Repr

/-- Configuration plus the external `utils` helpers.
`normalize` and `get_urlhash` are modelled from the spec: the spec
requires only that enqueuing normalizes the URL and keys the persisted
store by a stable hash of the canonical URL, so they enter as
(arbitrary, deterministic) functions. -/
structure FCtx where
  seed_urls : List String
  time_delay : Int
  normalize : String → String
  get_urlhash : String → String

def initF : FState :=
  { save := [], domain_queues := [], domain_heap := [], domains_in_heap := [],
    entry_count := 0, total_count := 0, completed_count := 0,
    active_workers := 0, polite := true }

/-- The matching condition of the loop body in
`ThreadedFrontier._get_domain` (line 51): `subdomain == valid_domain or
subdomain.endswith("." + valid_domain) or
subdomain.endswith(valid_domain.removeprefix("www."))`. -/
def codeBucketMatch (subdomain v : String) : Bool :=
  subdomain = v || endsWithStr subdomain ("." ++ v)
    || endsWithStr subdomain (dropPrefixStr "www." v)

/-- `ThreadedFrontier._get_domain` (lines 46-54): map a URL's netloc to
the first configured seed netloc satisfying `codeBucketMatch`;
otherwise the netloc is its own bucket. -/
def get_domain (c : FCtx) (s : FState) (url : String) : String :=
  let subdomain := (urlparse url).netloc
  if s.polite then
    let valid_domains := c.seed_urls.map fun d => (urlparse d).netloc
    match valid_domains.find? (fun v => codeBucketMatch subdomain v) with
    | some v => v
    | none => subdomain
  else subdomain

/-- Update a key of an association list in place (append when absent),
the model of `d[k] = v` on a Python dict. -/
def assocSet {α : Type} (l : List (String × α)) (k : String) (v : α) :
    List (String × α) :=
  match l with
  | [] => [(k, v)]
  | (k', v') :: rest =>
    if k' = k then (k', v) :: rest else (k', v') :: assocSet rest k v

/-- Delete a key of an association list (`del d[k]`). -/
def assocErase {α : Type} (l : List (String × α)) (k : String) :
    List (String × α) :=
  match l with
  | [] => []
  | (k', v') :: rest =>
    if k' = k then rest else (k', v') :: assocErase rest k

/-- `heapq` minimum of the schedule heap: lexicographic on
`(timestamp, domain)`. -/
def heapLt (a b : Int × String) : Bool :=
  a.1 < b.1 || (a.1 = b.1 && strLt a.2 b.2)

def heapMin? : List (Int × String) → Option (Int × String)
  | [] => none
  | x :: xs => some (xs.foldl (fun m y => if heapLt y m then y else m) x)

/-- `heapq` minimum of a domain queue: lexicographic on
`(-score, count, url)`. -/
def qLt (a b : QEntry) : Bool :=
  a.negScore < b.negScore || (a.negScore = b.negScore &&
    (a.count < b.count || (a.count = b.count && strLt a.url b.url)))

def qMin? : List QEntry → Option QEntry
  | [] => none
  | x :: xs => some (xs.foldl (fun m y => if qLt y m then y else m) x)

/-- `ThreadedFrontier._add_to_memory` (lines 98-105): push the entry on
the owning domain's queue and, when the domain is not yet scheduled,
push `(time.time(), domain)` on the schedule heap (`tPush` is that
`time.time()` sample). -/
def add_to_memory (c : FCtx) (s : FState) (url : String) (entry_count : Nat)
    (score : Int) (tPush : Int) : FState :=
  let domain := get_domain c s url
  let q := (s.domain_queues.lookup domain).getD []
  let queues' := assocSet s.domain_queues domain
    (⟨-score, entry_count, url⟩ :: q)
  if domain ∈ s.domains_in_heap then
    { s with domain_queues := queues' }
  else
    { s with domain_queues := queues',
             domain_heap := (tPush, domain) :: s.domain_heap,
             domains_in_heap := domain :: s.domains_in_heap }

/-- `ThreadedFrontier.add_url` (lines 146-161), in the form every
in-source caller uses (no explicit `entry_count`, so a fresh sequence
number is assigned).  A no-op when the hash already has a record. -/
def add_url (c : FCtx) (s : FState) (url0 : String) (score : Int)
    (tPush : Int) : FState :=
  let url := c.normalize url0
  let urlhash := c.get_urlhash url
  if (s.save.lookup urlhash).isSome then s
  else
    let entry_count := s.entry_count + 1
    let s' := { s with
      entry_count := entry_count,
      total_count := s.total_count + 1,
      save := s.save ++ [(urlhash, SaveRec.long url false score entry_count)] }
    add_to_memory c s' url entry_count score tPush

/-- `ThreadedFrontier.mark_url_complete` (lines 163-176).  The counter
updates precede the existence check; the `Bool` result records whether
the unknown-URL error was logged (the early `return`). -/
def mark_url_complete (c : FCtx) (s : FState) (url : String) : FState × Bool :=
  let urlhash := c.get_urlhash url
  let s1 := { s with completed_count := s.completed_count + 1,
                     active_workers := s.active_workers - 1 }
  if (s1.save.lookup urlhash).isNone then (s1, true)
  else ({ s1 with save := assocSet s1.save urlhash (SaveRec.short url true) }, false)

/-- The observable outcome of one iteration of the `while True` loop in
`get_tbd_url` (lines 107-144). -/
inductive DqResult
  | dispatched (now : Int) (domain url : String) (repushed : Bool)
  | done
  | waitBusy
  | waitTime
  | stale (domain : String)
  | dispatchError (domain url : String)
deriving Repr, DecidableEq

/-- One iteration of `get_tbd_url`'s loop.  `now` is the `time.time()`
sample taken at line 114 and `tRe` the later sample at line 119
(`now ≤ tRe` in any real execution).  The returned `Bool` records
whether this iteration called `cv.notify_all()` (which the code does
exactly on the `Done` path).  `dispatchError` is the politeness
assertion (`raise ValueError`) — the mutated state has already been
committed when it fires, as in the Python code. -/
def dequeueStep (c : FCtx) (s : FState) (now tRe : Int) :
    FState × DqResult × Bool :=
  match heapMin? s.domain_heap with
  | some nt_d =>
    let next_time := nt_d.1
    let domain := nt_d.2
    if now ≥ next_time then
      let heap1 := s.domain_heap.erase nt_d
      match qMin? ((s.domain_queues.lookup domain).getD []) with
      | some e =>
        let q' := ((s.domain_queues.lookup domain).getD []).erase e
        let new_next_time := tRe + c.time_delay
        let s' :=
          if q' = [] then
            { s with domain_heap := heap1,
                     domains_in_heap := s.domains_in_heap.erase domain,
                     domain_queues := assocErase s.domain_queues domain,
                     active_workers := s.active_workers + 1 }
          else
            { s with domain_heap := (new_next_time, domain) :: heap1,
                     domain_queues := assocSet s.domain_queues domain q',
                     active_workers := s.active_workers + 1 }
        let time_since_last := now - (next_time - c.time_delay)
        if time_since_last < c.time_delay then
          (s', .dispatchError domain e.url, false)
        else
          (s', .dispatched now domain e.url (!q'.isEmpty), false)
      | none =>
        ({ s with domain_heap := heap1,
                  domains_in_heap := s.domains_in_heap.erase domain },
         .stale domain, false)
    else (s, .waitTime, false)
  | none =>
    if s.active_workers = 0 then (s, .done, true) else (s, .waitBusy, false)

/-- The loop body of `_parse_save_file`: the accumulator carries the
frontier state under construction, `tbd_count` and `max_entry_count`. -/
def parseStep (c : FCtx) (isValid : String → Bool) (tPush : Int)
    (acc : FState × Nat × Nat) (kv : String × SaveRec) : FState × Nat × Nat :=
  match kv.2 with
  | .short _ _ => acc
  | .long url completed score count =>
    if !completed && isValid url then
      (add_to_memory c acc.1 url count score tPush, acc.2.1 + 1,
       max acc.2.2 count)
    else acc

/-- `ThreadedFrontier._parse_save_file` (lines 76-96): replay the store,
re-queueing only incomplete 4-tuple records whose URL passes
`Scraper.is_valid`, and resume `entry_count` at the maximum sequence
number seen among those re-queued records.  `is_valid` depends on the
blocked-extension regex from the missing `misc.py`, so it is a
parameter; `tPush` stands for the `time.time()` samples of the replay's
heap pushes (the replay runs at startup, before any dispatch). -/
def parse_save_file (c : FCtx) (isValid : String → Bool)
    (saved : List (String × SaveRec)) (tPush : Int) : FState :=
  let s0 := { initF with save := saved }
  let res := saved.foldl (parseStep c isValid tPush) (s0, 0, 0)
  { res.1 with entry_count := res.2.2, total_count := saved.length,
               completed_count := saved.length - res.2.1 }

/-- Frontier events: each carries the `time.time()` samples its Python
call would draw. -/
inductive FEvent
  | enqueue (url : String) (score : Int) (tPush : Int)
  | dequeue (now tRe : Int)
  | complete (url : String)
deriving Repr

/-- A successful dispatch as observed by a worker: the time of the
eligibility check, the domain bucket, the URL, and whether the domain
was rescheduled (its queue was still nonempty). -/
structure DispatchRec where
  time : Int
  domain : String
  url : String
  repushed : Bool
deriving Repr, DecidableEq

def stepF (c : FCtx) (s : FState) : FEvent → FState × Option DispatchRec
  | .enqueue url score tPush => (add_url c s url score tPush, none)
  | .dequeue now tRe =>
    let r := dequeueStep c s now tRe
    match r.2.1 with
    | .dispatched t d u rp => (r.1, some ⟨t, d, u, rp⟩)
    | _ => (r.1, none)
  | .complete url => ((mark_url_complete c s url).1, none)

/-- Run a trace of frontier events, collecting the dispatch log. -/
def runF (c : FCtx) (s : FState) : List FEvent → FState × List DispatchRec
  | [] => (s, [])
  | e :: rest =>
    let r := stepF c s e
    let r' := runF c r.1 rest
    (r'.1, r.2.toList ++ r'.2)

/-- The ordered list of time samples a trace draws (for the
monotonicity hypothesis: real `time.time()` values never decrease). -/
def evTimes : FEvent → List Int
  | .enqueue _ _ tPush => [tPush]
  | .dequeue now tRe => [now, tRe]
  | .complete _ => []

def traceTimes (evs : List FEvent) : List Int := evs.flatMap evTimes

/-- Count of `complete` events in a trace. -/
def countCompletes (evs : List FEvent) : Nat :=
  evs.countP fun e => match e with | .complete _ => true | _ => false

end Crawl.Frontier

namespace Crawl

/-! ## Generic helper lemmas about the association-list operations -/

theorem lookup_none_iff {β : Type} (k : String) (l : List (String × β)) :
    l.lookup k = none ↔ ∀ p ∈ l, p.1 ≠ k := by
  induction l with
  | nil => simp
  | cons hd tl ih =>
    obtain ⟨k', v⟩ := hd
    by_cases h : k = k'
    · subst h; simp [List.lookup_cons]
    · simp only [List.lookup_cons, beq_eq_false_iff_ne.mpr h, List.mem_cons]
      constructor
      · rintro hl p (rfl | hp)
        · exact fun e => h e.symm
        · exact (ih.mp hl) p hp
      · intro hall
        exact ih.mpr fun p hp => hall p (Or.inr hp)

theorem find?_split {α : Type} (p : α → Bool) (l : List α) (a : α)
    (h : l.find? p = some a) :
    ∃ l₁ l₂, l = l₁ ++ a :: l₂ ∧ ∀ x ∈ l₁, p x = false := by
  induction l with
  | nil => simp at h
  | cons hd tl ih =>
    by_cases hp : p hd
    · rw [List.find?_cons_of_pos _ hp] at h
      exact ⟨[], tl, by simp [Option.some_inj.mp h], by simp⟩
    · rw [List.find?_cons_of_neg _ hp] at h
      obtain ⟨l₁, l₂, rfl, hb⟩ := ih h
      refine ⟨hd :: l₁, l₂, rfl, ?_⟩
      intro x hx
      rcases List.mem_cons.mp hx with rfl | hx'
      · exact Bool.eq_false_iff.mpr hp
      · exact hb x hx'

theorem lookup_append_left {β : Type} (k : String) (l₁ l₂ : List (String × β)) :
    l₁.lookup k = none → (l₁ ++ l₂).lookup k = l₂.lookup k := by
  induction l₁ with
  | nil => simp
  | cons hd tl ih =>
    obtain ⟨k', v⟩ := hd
    intro h
    by_cases hk : k = k'
    · subst hk; simp [List.lookup_cons] at h
    · simp only [List.lookup_cons, beq_eq_false_iff_ne.mpr hk, List.cons_append] at h ⊢
      exact ih h

end Crawl

namespace Crawl.Frontier

open Crawl Crawl.Scraper

/-- A concrete frontier context for the closed-form checks below:
seed `http://ics.uci.edu`, politeness delay 2 time units, and identity
`normalize`/`get_urlhash` (any deterministic instantiation of the
missing `utils` helpers serves the counterexamples equally). -/
def cex : FCtx :=
  { seed_urls := ["http://ics.uci.edu"], time_delay := 2,
    normalize := id, get_urlhash := id }

/-- The bucket-matching rule as claim C9 states it: the host equals the
seed domain, is a (dot-separated) subdomain of it, or matches it after
a `www.` prefix is stripped from either side. -/
def claimBucketMatch (host seed : String) : Bool :=
  host = seed || endsWithStr host ("." ++ seed)
    || dropPrefixStr "www." host = seed || host = dropPrefixStr "www." seed

end Crawl.Frontier

/-! ## Claim C5 -/

/-- C5: canonical page identity of the URL model. `http://X.edu/a/`,
`http://x.edu/a` and `http://x.edu/a#frag` construct equal URL values
(same `canonicalPage`, equal under `URL.__eq__`, hence equal hashes),
while `http://x.edu/a?q=1` and `http://x.edu/a?q=2` construct unequal
values; the examples exhibit case-insensitivity, fragment discarding,
and single-trailing-slash stripping. -/
theorem C5_canonical_identity :
    Crawl.Scraper.urlEq (Crawl.Scraper.mkURL "http://X.edu/a/")
      (Crawl.Scraper.mkURL "http://x.edu/a") = true ∧
    Crawl.Scraper.urlEq (Crawl.Scraper.mkURL "http://X.edu/a/")
      (Crawl.Scraper.mkURL "http://x.edu/a#frag") = true ∧
    Crawl.Scraper.urlEq (Crawl.Scraper.mkURL "http://x.edu/a?q=1")
      (Crawl.Scraper.mkURL "http://x.edu/a?q=2") = false ∧
    (Crawl.Scraper.mkURL "http://X.edu/a/").page = "http://x.edu/a" ∧
    (Crawl.Scraper.mkURL "http://x.edu/a#frag").page = "http://x.edu/a" ∧
    (Crawl.Scraper.mkURL "http://x.edu/a?q=1").page = "http://x.edu/a?q=1" ∧
    (Crawl.Scraper.mkURL "http://x.edu/a?q=2").page = "http://x.edu/a?q=2" := by
  decide

/-! ## Claim C9 -/

/-- C9 counterexample: with seed domain `ics.uci.edu`, the host
`statistics.uci.edu` is bucketed to `ics.uci.edu` by `_get_domain`
(`"statistics.uci.edu".endswith("ics.uci.edu")` is true), although it
does not equal the seed, is not a subdomain of it, and does not match
it after stripping a `www.` prefix — refuting the claimed "exactly
when" characterization. -/
theorem C9_counterexample :
    Crawl.Frontier.get_domain Crawl.Frontier.cex Crawl.Frontier.initF
      "http://statistics.uci.edu/p" = "ics.uci.edu" ∧
    Crawl.Frontier.claimBucketMatch "statistics.uci.edu" "ics.uci.edu" = false := by
  decide

/-- C9 amended: `_get_domain` maps the URL's host to the first
configured seed domain such that the host equals it, ends with `"." +
seed`, or ends with the seed stripped of a leading `www.` (a bare
suffix match, not anchored at a label boundary); if no seed matches,
the host is its own bucket. -/
theorem C9_amended (c : Crawl.Frontier.FCtx) (s : Crawl.Frontier.FState)
    (url : String) (hpol : s.polite = true) :
    (Crawl.Frontier.get_domain c s url ∈
        c.seed_urls.map (fun d => (Crawl.urlparse d).netloc) ∧
      Crawl.Frontier.codeBucketMatch (Crawl.urlparse url).netloc
        (Crawl.Frontier.get_domain c s url) = true ∧
      ∀ v ∈ c.seed_urls.map (fun d => (Crawl.urlparse d).netloc),
        Crawl.Frontier.codeBucketMatch (Crawl.urlparse url).netloc v = true →
          ∃ l₁ l₂, c.seed_urls.map (fun d => (Crawl.urlparse d).netloc) =
            l₁ ++ Crawl.Frontier.get_domain c s url :: l₂ ∧
            ∀ w ∈ l₁, Crawl.Frontier.codeBucketMatch
              (Crawl.urlparse url).netloc w = false) ∨
    (Crawl.Frontier.get_domain c s url = (Crawl.urlparse url).netloc ∧
      ∀ v ∈ c.seed_urls.map (fun d => (Crawl.urlparse d).netloc),
        Crawl.Frontier.codeBucketMatch (Crawl.urlparse url).netloc v = false) := by
  unfold Crawl.Frontier.get_domain
  rw [hpol]
  simp only [if_true]
  cases hf : (c.seed_urls.map fun d => (Crawl.urlparse d).netloc).find?
      (fun v => Crawl.Frontier.codeBucketMatch (Crawl.urlparse url).netloc v) with
  | none =>
    right
    refine ⟨rfl, fun v hv => ?_⟩
    have := List.find?_eq_none.mp hf v hv
    simpa using this
  | some v =>
    left
    refine ⟨List.mem_of_find?_eq_some hf, List.find?_some hf, fun w _ _ => ?_⟩
    obtain ⟨l₁, l₂, hsplit, hbefore⟩ := Crawl.find?_split _ _ _ hf
    exact ⟨l₁, l₂, hsplit, hbefore⟩

/-- C9 amended, witnessed at a concrete input: `sub.ics.uci.edu` is
bucketed to the seed `ics.uci.edu`. -/
theorem C9_amended_witness :
    Crawl.Frontier.get_domain Crawl.Frontier.cex Crawl.Frontier.initF
      "http://sub.ics.uci.edu/p" = "ics.uci.edu" := by
  rcases C9_amended Crawl.Frontier.cex Crawl.Frontier.initF
      "http://sub.ics.uci.edu/p" rfl with h | h
  · have hmem := h.1
    revert hmem
    decide
  · exact absurd (h.2 "ics.uci.edu" (by decide)) (by decide)

/-! ## Claim C8 -/

/-- C8 counterexample: marking a URL with no record does leave the
store and queues unchanged and raises nothing, but it increments
`completed_count` and decrements `active_workers` before the existence
check, so the counters are *not* unchanged as the claim asserts. -/
theorem C8_counterexample :
    ((Crawl.Frontier.mark_url_complete Crawl.Frontier.cex Crawl.Frontier.initF
        "http://a.edu/x").1.completed_count = 1 ∧
      Crawl.Frontier.initF.completed_count = 0) ∧
    ((Crawl.Frontier.mark_url_complete Crawl.Frontier.cex Crawl.Frontier.initF
        "http://a.edu/x").1.active_workers = -1 ∧
      Crawl.Frontier.initF.active_workers = 0) ∧
    (Crawl.Frontier.mark_url_complete Crawl.Frontier.cex Crawl.Frontier.initF
        "http://a.edu/x").2 = true := by
  decide

/-- C8 amended: for a URL whose hash has no record, `mark_url_complete`
logs the error and returns without raising and without creating a
record, leaving the persisted store, the queues and the schedule
unchanged — but it still increments `completed_count` and decrements
`active_workers`, because those counter updates precede the existence
check. -/
theorem C8_amended (c : Crawl.Frontier.FCtx) (s : Crawl.Frontier.FState)
    (url : String) (h : s.save.lookup (c.get_urlhash url) = none) :
    (Crawl.Frontier.mark_url_complete c s url).1.save = s.save ∧
    (Crawl.Frontier.mark_url_complete c s url).1.domain_queues = s.domain_queues ∧
    (Crawl.Frontier.mark_url_complete c s url).1.domain_heap = s.domain_heap ∧
    (Crawl.Frontier.mark_url_complete c s url).1.domains_in_heap = s.domains_in_heap ∧
    (Crawl.Frontier.mark_url_complete c s url).1.completed_count =
      s.completed_count + 1 ∧
    (Crawl.Frontier.mark_url_complete c s url).1.active_workers =
      s.active_workers - 1 ∧
    (Crawl.Frontier.mark_url_complete c s url).2 = true := by
  unfold Crawl.Frontier.mark_url_complete
  simp [h]

/-- C8 amended, witnessed at a concrete input. -/
theorem C8_amended_witness :
    Crawl.Frontier.initF.save.lookup (Crawl.Frontier.cex.get_urlhash
      "http://a.edu/x") = none ∧
    (Crawl.Frontier.mark_url_complete Crawl.Frontier.cex Crawl.Frontier.initF
      "http://a.edu/x").1.save = Crawl.Frontier.initF.save :=
  ⟨rfl, (C8_amended Crawl.Frontier.cex Crawl.Frontier.initF "http://a.edu/x" rfl).1⟩

namespace Crawl.Frontier

/-! ## Supporting lemmas for claim C4 (idempotent discovery) -/

/-- Total number of queue entries for a given (normalized) URL across
all domain queues. -/
def countUrlEntries (s : FState) (u : String) : Nat :=
  (s.domain_queues.map fun p => p.2.countP (fun e => e.url = u)).sum

theorem countQ_assocSet (l : List (String × List QEntry)) (d : String)
    (e : QEntry) (u : String) :
    ((assocSet l d (e :: (l.lookup d).getD [])).map
        fun p => p.2.countP (fun x => x.url = u)).sum =
      (l.map fun p => p.2.countP (fun x => x.url = u)).sum +
        (if e.url = u then 1 else 0) := by
  induction l with
  | nil => simp [assocSet, List.countP_cons]
  | cons hd tl ih =>
    obtain ⟨k, q0⟩ := hd
    by_cases hk : k = d
    · subst hk
      simp [assocSet, List.lookup_cons, List.countP_cons]
      omega
    · simp only [assocSet, if_neg hk, List.lookup_cons,
        beq_eq_false_iff_ne.mpr (fun h => hk h.symm), List.map_cons, List.sum_cons]
      rw [ih]
      omega

theorem add_to_memory_queues (c : FCtx) (s : FState) (url : String)
    (n : Nat) (sc t : Int) :
    (add_to_memory c s url n sc t).domain_queues =
      assocSet s.domain_queues (get_domain c s url)
        (⟨-sc, n, url⟩ ::
          ((s.domain_queues.lookup (get_domain c s url)).getD [])) := by
  by_cases h : get_domain c s url ∈ s.domains_in_heap <;>
    simp [add_to_memory, h]

theorem add_to_memory_save (c : FCtx) (s : FState) (url : String)
    (n : Nat) (sc t : Int) :
    (add_to_memory c s url n sc t).save = s.save := by
  by_cases h : get_domain c s url ∈ s.domains_in_heap <;>
    simp [add_to_memory, h]

/-- `add_url` is a no-op when the hash already has a record. -/
theorem add_url_known (c : FCtx) (s : FState) (u : String) (score t : Int)
    (h : (s.save.lookup (c.get_urlhash (c.normalize u))).isSome) :
    add_url c s u score t = s := by
  simp only [add_url]
  rw [if_pos h]

theorem add_url_fresh_save (c : FCtx) (s : FState) (u : String) (score t : Int)
    (hfresh : s.save.lookup (c.get_urlhash (c.normalize u)) = none) :
    (add_url c s u score t).save = s.save ++
      [(c.get_urlhash (c.normalize u),
        SaveRec.long (c.normalize u) false score (s.entry_count + 1))] := by
  simp only [add_url]
  rw [if_neg (by simp [hfresh])]
  rw [add_to_memory_save]

theorem add_url_fresh_queues (c : FCtx) (s : FState) (u : String)
    (score t : Int)
    (hfresh : s.save.lookup (c.get_urlhash (c.normalize u)) = none) :
    ∃ d, (add_url c s u score t).domain_queues =
      assocSet s.domain_queues d
        (⟨-score, s.entry_count + 1, c.normalize u⟩ ::
          ((s.domain_queues.lookup d).getD [])) := by
  simp only [add_url]
  rw [if_neg (by simp [hfresh])]
  exact ⟨_, add_to_memory_queues ..⟩

end Crawl.Frontier

/-! ## Claim C4 -/

/-- C4: enqueuing a fresh URL `u` and then enqueuing it again (with any
scores, and possibly via a different spelling `u'` that normalizes to
the same hash) results in exactly one persisted record and exactly one
domain-queue entry for `u`, and the second call leaves all frontier
state unchanged.  `hwf` is the reachable-state invariant that every
queued URL already has a persisted record. -/
theorem C4_idempotent_enqueue (c : Crawl.Frontier.FCtx)
    (s : Crawl.Frontier.FState) (u u' : String) (score1 score2 t1 t2 : Int)
    (hsame : c.get_urlhash (c.normalize u') = c.get_urlhash (c.normalize u))
    (hfresh : s.save.lookup (c.get_urlhash (c.normalize u)) = none)
    (hwf : ∀ p ∈ s.domain_queues, ∀ e ∈ p.2,
      (s.save.lookup (c.get_urlhash e.url)).isSome) :
    Crawl.Frontier.add_url c (Crawl.Frontier.add_url c s u score1 t1)
        u' score2 t2 = Crawl.Frontier.add_url c s u score1 t1 ∧
    (Crawl.Frontier.add_url c (Crawl.Frontier.add_url c s u score1 t1)
        u' score2 t2).save.countP
      (fun kv => kv.1 = c.get_urlhash (c.normalize u)) = 1 ∧
    Crawl.Frontier.countUrlEntries
      (Crawl.Frontier.add_url c (Crawl.Frontier.add_url c s u score1 t1)
        u' score2 t2) (c.normalize u) = 1 := by
  set key := c.get_urlhash (c.normalize u) with hkey
  have hsave1 := Crawl.Frontier.add_url_fresh_save c s u score1 t1 hfresh
  have hlook1 : (Crawl.Frontier.add_url c s u score1 t1).save.lookup key =
      some (Crawl.Frontier.SaveRec.long (c.normalize u) false score1
        (s.entry_count + 1)) := by
    rw [hsave1, Crawl.lookup_append_left key _ _ hfresh]
    simp [List.lookup_cons]
  have hnoop : Crawl.Frontier.add_url c (Crawl.Frontier.add_url c s u score1 t1)
      u' score2 t2 = Crawl.Frontier.add_url c s u score1 t1 := by
    apply Crawl.Frontier.add_url_known
    rw [hsame, hlook1]
    rfl
  refine ⟨hnoop, ?_, ?_⟩
  · rw [hnoop, hsave1, List.countP_append]
    have h0 : s.save.countP (fun kv => kv.1 = key) = 0 := by
      rw [List.countP_eq_zero]
      intro a ha
      have := (Crawl.lookup_none_iff key s.save).mp hfresh a ha
      simpa using this
    rw [h0]
    simp
  · rw [hnoop]
    have h0 : Crawl.Frontier.countUrlEntries s (c.normalize u) = 0 := by
      unfold Crawl.Frontier.countUrlEntries
      rw [List.sum_eq_zero]
      intro x hx
      obtain ⟨p, hp, rfl⟩ := List.mem_map.mp hx
      rw [List.countP_eq_zero]
      intro e he heq
      have hin := hwf p hp e he
      have : c.get_urlhash e.url = key := by
        simp only [decide_eq_true_eq] at heq
        rw [heq, hkey]
      rw [this, hfresh] at hin
      simp at hin
    obtain ⟨d, hq⟩ := Crawl.Frontier.add_url_fresh_queues c s u score1 t1 hfresh
    unfold Crawl.Frontier.countUrlEntries
    rw [hq, Crawl.Frontier.countQ_assocSet]
    unfold Crawl.Frontier.countUrlEntries at h0
    rw [h0]
    simp

namespace Crawl.Scraper

/-! ## Supporting definitions and lemmas for claim C7 (simhash) -/

/-- The per-occurrence contribution of one token at bit `i`: `+1` when
bit `i` of the token's 64-bit hash is 1, `-1` otherwise. -/
def tokSign (h : String → Nat) (i : Nat) (t : String) : Int :=
  if (h t).testBit i then 1 else -1

/-- The accumulated sum at bit position `i` exactly as the spec words
it: for each distinct token, its frequency times `+1`/`-1` according to
bit `i` of its hash. -/
def specBitSum (h : String → Nat) (words : List String) (i : Nat) : Int :=
  ∑ t ∈ words.toFinset, (words.count t : Int) * tokSign h i t

/-- The fingerprint as the spec describes it: bit `i` set iff the
accumulated sum at position `i` is positive. -/
def specFingerprint (h : String → Nat) (words : List String) : Nat :=
  (List.range 64).foldl
    (fun acc i => if specBitSum h words i > 0 then acc ||| (1 <<< i) else acc) 0

/-- Code-side accumulated sum over an explicit frequency list. -/
def codeSum (h : String → Nat) (freqs : List (String × Nat)) (i : Nat) : Int :=
  (freqs.map fun tw => (tw.2 : Int) * tokSign h i tw.1).sum

theorem getD_mapIdx (f : Nat → Int → Int) (l : List Int) (i : Nat)
    (hi : i < l.length) : (l.mapIdx f).getD i 0 = f i (l.getD i 0) := by
  induction l generalizing f i with
  | nil => simp at hi
  | cons a l ih =>
    rw [List.mapIdx_cons]
    cases i with
    | zero => simp
    | succ j =>
      simp only [List.getD_cons_succ]
      exact ih _ j (by simpa using hi)

theorem foldl_bump_getD (h : String → Nat) (freqs : List (String × Nat))
    (v : List Int) (i : Nat) (hi : i < 64) (hv : v.length = 64) :
    (freqs.foldl
        (fun v tw => v.mapIdx fun i x =>
          if (h tw.1).testBit i then x + (tw.2 : Int) else x - (tw.2 : Int))
        v).getD i 0
      = v.getD i 0 + codeSum h freqs i := by
  induction freqs generalizing v with
  | nil => simp [codeSum]
  | cons tw rest ih =>
    rw [List.foldl_cons, ih _ (by simp [hv]),
      getD_mapIdx _ _ i (by rw [hv]; exact hi)]
    simp only [codeSum, List.map_cons, List.sum_cons, tokSign]
    by_cases hb : (h tw.1).testBit i <;> simp [hb, codeSum, tokSign] <;> ring

theorem getD_replicate_self (n i : Nat) (a : Int) :
    (List.replicate n a).getD i a = a := by
  induction n generalizing i with
  | zero => simp
  | succ m ih => cases i <;> simp [List.replicate, ih]

theorem vVec_getD (h : String → Nat) (freqs : List (String × Nat)) (i : Nat)
    (hi : i < 64) : (vVec h freqs).getD i 0 = codeSum h freqs i := by
  unfold vVec
  rw [foldl_bump_getD h freqs _ i hi (by simp), getD_replicate_self]
  simp

theorem codeSum_bumpKey (h : String → Nat) (i : Nat)
    (acc : List (String × Nat)) (t : String) :
    codeSum h (bumpKey acc t) i = codeSum h acc i + tokSign h i t := by
  induction acc with
  | nil => simp [bumpKey, codeSum]
  | cons kv rest ih =>
    obtain ⟨k, v⟩ := kv
    by_cases hk : k = t
    · subst hk
      have hb : bumpKey ((k, v) :: rest) k = (k, v + 1) :: rest := by
        simp [bumpKey]
      rw [hb]
      simp only [codeSum, List.map_cons, List.sum_cons]
      push_cast
      ring
    · have hb : bumpKey ((k, v) :: rest) t = (k, v) :: bumpKey rest t := by
        simp [bumpKey, hk]
      rw [hb]
      simp only [codeSum, List.map_cons, List.sum_cons] at ih ⊢
      rw [ih]
      ring

theorem codeSum_buildFreqs (h : String → Nat) (i : Nat) (ws : List String) :
    codeSum h (buildFreqs ws) i = (ws.map (tokSign h i)).sum := by
  suffices H : ∀ acc, codeSum h (ws.foldl bumpKey acc) i =
      codeSum h acc i + (ws.map (tokSign h i)).sum by
    simpa [buildFreqs, codeSum] using H []
  induction ws with
  | nil => intro acc; simp
  | cons t rest ih =>
    intro acc
    rw [List.foldl_cons, ih, codeSum_bumpKey]
    simp only [List.map_cons, List.sum_cons]
    ring

theorem specBitSum_eq_flat (h : String → Nat) (ws : List String) (i : Nat) :
    specBitSum h ws i = (ws.map (tokSign h i)).sum := by
  rw [specBitSum, Finset.sum_list_map_count]
  simp [nsmul_eq_mul]

/-- The fingerprint the code computes equals the fingerprint the spec
describes. -/
theorem simhash_eq_spec (h : String → Nat) (ws : List String) :
    simhashOf (vVec h (buildFreqs ws)) = specFingerprint h ws := by
  unfold simhashOf specFingerprint
  apply List.foldl_ext
  intro acc i hi
  have hi64 : i < 64 := List.mem_range.mp hi
  rw [vVec_getD _ _ _ hi64, codeSum_buildFreqs, ← specBitSum_eq_flat]

end Crawl.Scraper

/-! ## Claim C7 -/

/-- C7 counterexample: for a page with an empty token list the
near-duplicate check accepts without recording the page's fingerprint
(which the spec's computation defines as 0), and it accepts even when a
recorded fingerprint (0 itself) has similarity 1 ≥ 0.95 with the page's
fingerprint — refuting both the claimed reject-iff and the
record-exactly-when-not-rejected behaviour for empty token lists. -/
theorem C7_counterexample :
    (Crawl.Scraper.detect_near_similar (fun _ => 0) [] []).1 = false ∧
    (Crawl.Scraper.detect_near_similar (fun _ => 0) [] []).2 = [] ∧
    Crawl.Scraper.specFingerprint (fun _ => 0) [] = 0 ∧
    (Crawl.Scraper.detect_near_similar (fun _ => 0) [0] []).1 = false ∧
    (Crawl.Scraper.detect_near_similar (fun _ => 0) [0] []).2 = [0] ∧
    ((1 : ℚ) - (Crawl.Scraper.hamming
        (Crawl.Scraper.specFingerprint (fun _ => 0) []) 0 : ℚ) / 64 ≥ 95 / 100) := by
  have hfp : Crawl.Scraper.specFingerprint (fun _ => 0) [] = 0 := by decide
  have hham : Crawl.Scraper.hamming 0 0 = 0 := by decide
  refine ⟨rfl, rfl, hfp, rfl, rfl, ?_⟩
  rw [hfp, hham]
  norm_num

/-- C7 amended: for every page with a *nonempty* token list,
`detect_near_similar` computes the 64-bit simhash fingerprint exactly
as described (frequency-weighted ±1 bit sums, bit set iff positive),
rejects iff some previously recorded fingerprint has similarity
`1 - hamming/64 ≥ 0.95`, and records the new fingerprint exactly when
the page is not rejected; a page with an empty token list is accepted
without recording anything. -/
theorem C7_amended (h : String → Nat) (seen : List Nat) (words : List String)
    (hw : words ≠ []) :
    ((Crawl.Scraper.detect_near_similar h seen words).1 = true ↔
      ∃ sh ∈ seen, (1 : ℚ) -
        (Crawl.Scraper.hamming (Crawl.Scraper.specFingerprint h words) sh : ℚ) / 64
          ≥ 95 / 100) ∧
    (Crawl.Scraper.detect_near_similar h seen words).2 =
      (if (Crawl.Scraper.detect_near_similar h seen words).1 then seen
       else Crawl.Scraper.specFingerprint h words :: seen) := by
  have key : Crawl.Scraper.detect_near_similar h seen words =
      (if seen.any (fun sh =>
          Crawl.Scraper.nearReject (Crawl.Scraper.specFingerprint h words) sh)
       then (true, seen)
       else (false, Crawl.Scraper.specFingerprint h words :: seen)) := by
    unfold Crawl.Scraper.detect_near_similar
    rw [if_neg hw]
    simp only [Crawl.Scraper.simhash_eq_spec]
  by_cases hany : seen.any (fun sh =>
      Crawl.Scraper.nearReject (Crawl.Scraper.specFingerprint h words) sh)
  · rw [key, if_pos hany]
    refine ⟨⟨fun _ => ?_, fun _ => rfl⟩, by simp⟩
    obtain ⟨sh, hsh, hr⟩ := List.any_eq_true.mp hany
    exact ⟨sh, hsh, of_decide_eq_true hr⟩
  · rw [key, if_neg hany]
    refine ⟨⟨fun hc => absurd hc (by simp), fun hex => ?_⟩, by simp⟩
    obtain ⟨sh, hsh, hr⟩ := hex
    exact absurd (List.any_eq_true.mpr ⟨sh, hsh, decide_eq_true hr⟩) hany

/-- C7 amended, witnessed at a concrete input: one accepted page whose
fingerprint is recorded. -/
theorem C7_amended_witness :
    (Crawl.Scraper.detect_near_similar (fun _ => 0) [] ["a"]).2 =
      [Crawl.Scraper.specFingerprint (fun _ => 0) ["a"]] := by
  have h := C7_amended (fun _ => 0) [] ["a"] (by decide)
  rw [h.2]
  have : (Crawl.Scraper.detect_near_similar (fun _ => 0) [] ["a"]).1 = false := by
    have := h.1
    by_cases hb : (Crawl.Scraper.detect_near_similar (fun _ => 0) [] ["a"]).1
    · obtain ⟨sh, hsh, _⟩ := this.mp hb
      simp at hsh
    · exact Bool.eq_false_iff.mpr hb
  rw [this]
  simp

namespace Crawl.Scraper

/-! ## Supporting lemmas for claims C6 and C10 (the filter pipeline) -/

theorem update_analytics_seenUrls (sw : List String) (s : ScrState) (u : URL)
    (w : List String) (wc : Nat) :
    (update_analytics sw s u w wc).seenUrls = s.seenUrls := rfl

theorem update_analytics_seenExact (sw : List String) (s : ScrState) (u : URL)
    (w : List String) (wc : Nat) :
    (update_analytics sw s u w wc).seenExact = s.seenExact := rfl

/-- Behaviour of the exact-duplicate check on a nonempty token list. -/
theorem detect_exact_spec (f : String → String) (seen : List String)
    (ws : List String) (hw : ws ≠ []) :
    ((detect_exact_similar f seen ws).1 = false →
      (detect_exact_similar f seen ws).2 = f (String.join ws) :: seen) ∧
    (f (String.join ws) ∈ seen → (detect_exact_similar f seen ws).1 = true) ∧
    f (String.join ws) ∈ (detect_exact_similar f seen ws).2 := by
  unfold detect_exact_similar
  rw [if_neg hw]
  by_cases h : f (String.join ws) ∈ seen <;> simp [h]

/-- The recorded exact-hash set only grows. -/
theorem detect_exact_mono (f : String → String) (seen : List String)
    (ws : List String) : seen ⊆ (detect_exact_similar f seen ws).2 := by
  unfold detect_exact_similar
  by_cases hw : ws = []
  · simp [hw]
  · rw [if_neg hw]
    by_cases h : f (String.join ws) ∈ seen <;> simp [h]

/-- Master case analysis of `extract_next_links`: how each call
transforms `seen_urls` and `seen_exact_content_hashes`, and what must
have held when a page was accepted. -/
theorem extract_master (c : SCtx) (s : ScrState) (u : String) (p : PageInput) :
    ((mkURL u).page ∈ s.seenUrls → extract_next_links c s u p = (none, s)) ∧
    ((mkURL u).page ∉ s.seenUrls →
      (extract_next_links c s u p).2.seenUrls = (mkURL u).page :: s.seenUrls) ∧
    ((extract_next_links c s u p).2.seenExact = s.seenExact ∨
      (extract_next_links c s u p).2.seenExact =
        (detect_exact_similar c.sha1hex s.seenExact (tokenize p.text)).2) ∧
    ((extract_next_links c s u p).1.isSome = true →
      (mkURL u).page ∉ s.seenUrls ∧
      (detect_exact_similar c.sha1hex s.seenExact (tokenize p.text)).1 = false ∧
      (extract_next_links c s u p).2.seenExact =
        (detect_exact_similar c.sha1hex s.seenExact (tokenize p.text)).2) := by
  unfold extract_next_links
  by_cases h1 : (mkURL u).page ∈ s.seenUrls
  · simp [h1]
  · simp only [if_neg h1]
    split_ifs with h2 h3 h4 h5 h6 h7 h8 <;>
      simp_all [update_analytics_seenExact, update_analytics_seenUrls]

/-- `extract_next_links` never removes recorded exact hashes. -/
theorem extract_seenExact_mono (c : SCtx) (s : ScrState) (u : String)
    (p : PageInput) : s.seenExact ⊆ (extract_next_links c s u p).2.seenExact := by
  rcases (extract_master c s u p).2.2.1 with h | h
  · rw [h]
    exact List.Subset.refl _
  · rw [h]
    exact detect_exact_mono _ _ _

theorem runScraper_seenExact_mono (c : SCtx) (s : ScrState)
    (l : List (String × PageInput)) :
    s.seenExact ⊆ (runScraper c s l).seenExact := by
  induction l generalizing s with
  | nil => exact List.Subset.refl _
  | cons hd tl ih =>
    obtain ⟨u, p⟩ := hd
    exact (extract_seenExact_mono c s u p).trans (ih _)

/-- An accepted page records the digest of its token concatenation. -/
theorem accepted_hash_mem (c : SCtx) (s : ScrState) (u : String)
    (p : PageInput) (hw : tokenize p.text ≠ [])
    (hacc : (extract_next_links c s u p).1.isSome = true) :
    c.sha1hex (String.join (tokenize p.text)) ∈
      (extract_next_links c s u p).2.seenExact := by
  obtain ⟨-, -, hex⟩ := (extract_master c s u p).2.2.2 hacc
  rw [hex]
  exact (detect_exact_spec c.sha1hex _ _ hw).2.2

/-- A page whose token digest is already recorded is never accepted. -/
theorem recorded_hash_rejected (c : SCtx) (s : ScrState) (u : String)
    (p : PageInput) (hw : tokenize p.text ≠ [])
    (hmem : c.sha1hex (String.join (tokenize p.text)) ∈ s.seenExact) :
    (extract_next_links c s u p).1 = none := by
  cases hres : (extract_next_links c s u p).1 with
  | none => rfl
  | some links =>
    exfalso
    have hacc : (extract_next_links c s u p).1.isSome = true := by
      rw [hres]; rfl
    obtain ⟨-, hfalse, -⟩ := (extract_master c s u p).2.2.2 hacc
    have htrue := (detect_exact_spec c.sha1hex _ _ hw).2.1 hmem
    rw [hfalse] at htrue
    exact Bool.false_ne_true htrue

end Crawl.Scraper


/-! ## Claim C6 -/

/-- A concrete scraper context: identity digest, constant token hash,
no stop words (any deterministic instantiation of the external hash
functions serves the counterexample equally). -/
def sctxEx : Crawl.Scraper.SCtx :=
  { sha1hex := fun s => s, tokenHash := fun _ => 0, stopwords := [] }

/-- A 200-status page whose body has no alphanumeric characters: its
token sequence is empty. -/
def pNoTok : Crawl.Scraper.PageInput :=
  { status := 200, hasRaw := true, contentLen := 10, parseOk := true,
    text := "???", hrefs := [] }

/-- A 200-status page with a single token `hi`. -/
def pOneTok : Crawl.Scraper.PageInput :=
  { status := 200, hasRaw := true, contentLen := 10, parseOk := true,
    text := "hi", hrefs := [] }

/-- C6 counterexample: two pages with byte-identical *empty* token
sequences are both accepted (the exact-duplicate check skips empty
token lists), refuting the claim's unrestricted "never accepts both". -/
theorem C6_counterexample :
    Crawl.Scraper.tokenize pNoTok.text = [] ∧
    (Crawl.Scraper.extract_next_links sctxEx Crawl.Scraper.initScrState
      "http://a.edu/p1" pNoTok).1.isSome = true ∧
    (Crawl.Scraper.extract_next_links sctxEx
      (Crawl.Scraper.extract_next_links sctxEx Crawl.Scraper.initScrState
        "http://a.edu/p1" pNoTok).2
      "http://a.edu/p2" pNoTok).1.isSome = true := by
  decide

/-- C6 amended: for every two fetched pages whose tokenized texts are
byte-identical *nonempty* token sequences, the content filter never
accepts both pages, regardless of their URLs and of any other pages
processed in between: if the first is accepted, the digest of its token
concatenation is recorded, so the second cannot pass the
exact-duplicate check. -/
theorem C6_never_both_accepted (c : Crawl.Scraper.SCtx)
    (s0 : Crawl.Scraper.ScrState) (u1 u2 : String)
    (p1 p2 : Crawl.Scraper.PageInput)
    (mids : List (String × Crawl.Scraper.PageInput))
    (hw : Crawl.Scraper.tokenize p1.text = Crawl.Scraper.tokenize p2.text)
    (hne : Crawl.Scraper.tokenize p1.text ≠ []) :
    ¬((Crawl.Scraper.extract_next_links c s0 u1 p1).1.isSome = true ∧
      (Crawl.Scraper.extract_next_links c
        (Crawl.Scraper.runScraper c
          (Crawl.Scraper.extract_next_links c s0 u1 p1).2 mids)
        u2 p2).1.isSome = true) := by
  rintro ⟨h1, h2⟩
  have hmem1 := Crawl.Scraper.accepted_hash_mem c s0 u1 p1 hne h1
  have hmem2 : c.sha1hex (String.join (Crawl.Scraper.tokenize p2.text)) ∈
      (Crawl.Scraper.runScraper c
        (Crawl.Scraper.extract_next_links c s0 u1 p1).2 mids).seenExact := by
    rw [← hw]
    exact Crawl.Scraper.runScraper_seenExact_mono c _ mids hmem1
  have hrej := Crawl.Scraper.recorded_hash_rejected c
    (Crawl.Scraper.runScraper c
      (Crawl.Scraper.extract_next_links c s0 u1 p1).2 mids)
    u2 p2 (hw ▸ hne) hmem2
  rw [hrej] at h2
  simp at h2

/-- C6 amended, witnessed at a concrete input: a page with one token is
accepted, and an immediate identical resubmission under a different URL
is rejected. -/
theorem C6_witness :
    ¬((Crawl.Scraper.extract_next_links sctxEx Crawl.Scraper.initScrState
        "http://a.edu/q1" pOneTok).1.isSome = true ∧
      (Crawl.Scraper.extract_next_links sctxEx
        (Crawl.Scraper.extract_next_links sctxEx Crawl.Scraper.initScrState
          "http://a.edu/q1" pOneTok).2 "http://a.edu/q2" pOneTok).1.isSome = true) :=
  C6_never_both_accepted sctxEx Crawl.Scraper.initScrState
    "http://a.edu/q1" "http://a.edu/q2" pOneTok pOneTok [] rfl (by decide)

/-- C4 witnessed at a concrete input: double-enqueue of a fresh URL on
an empty frontier leaves exactly one queue entry for it. -/
theorem C4_witness :
    Crawl.Frontier.countUrlEntries
      (Crawl.Frontier.add_url Crawl.Frontier.cex
        (Crawl.Frontier.add_url Crawl.Frontier.cex Crawl.Frontier.initF
          "http://a.edu/x" 0 0) "http://a.edu/x" 5 1) "http://a.edu/x" = 1 := by
  have h := C4_idempotent_enqueue Crawl.Frontier.cex Crawl.Frontier.initF
    "http://a.edu/x" "http://a.edu/x" 0 5 0 1 rfl rfl
    (by intro p hp; simp [Crawl.Frontier.initF] at hp)
  exact h.2.2

/-! ## Claim C10 -/

/-- C10: on the first call of `extract_next_links` with a URL of a
fresh canonical page, that page enters `seen_urls` no matter how the
page fares in the transport, size, trap, parse and duplicate checks
(the insertion precedes them all, so the statement needs no hypothesis
about the page input); consequently `get_uniquePages_num` counts the
page even when it is rejected; and every later call with a URL of the
same canonical page returns the empty list and leaves the state
unchanged. -/
theorem C10_seen_before_checks (c : Crawl.Scraper.SCtx)
    (s : Crawl.Scraper.ScrState) (u : String) (p : Crawl.Scraper.PageInput)
    (hfresh : (Crawl.Scraper.mkURL u).page ∉ s.seenUrls) :
    (Crawl.Scraper.mkURL u).page ∈
      (Crawl.Scraper.extract_next_links c s u p).2.seenUrls ∧
    Crawl.Scraper.get_uniquePages_num
        (Crawl.Scraper.extract_next_links c s u p).2 =
      Crawl.Scraper.get_uniquePages_num s + 1 ∧
    (∀ u2 p2, (Crawl.Scraper.mkURL u2).page = (Crawl.Scraper.mkURL u).page →
      Crawl.Scraper.extract_next_links c
          (Crawl.Scraper.extract_next_links c s u p).2 u2 p2 =
        (none, (Crawl.Scraper.extract_next_links c s u p).2)) := by
  have hs := (Crawl.Scraper.extract_master c s u p).2.1 hfresh
  refine ⟨by rw [hs]; exact List.mem_cons_self _ _, ?_, ?_⟩
  · unfold Crawl.Scraper.get_uniquePages_num
    rw [hs]
    rfl
  · intro u2 p2 heq
    apply (Crawl.Scraper.extract_master c _ u2 p2).1
    rw [heq, hs]
    exact List.mem_cons_self _ _

/-- A page rejected by the transport check (status 404). -/
def pReject : Crawl.Scraper.PageInput :=
  { status := 404, hasRaw := false, contentLen := 0, parseOk := false,
    text := "", hrefs := [] }

/-- C10 witnessed at a concrete input: a rejected (404) page still
raises the unique-page count from 0 to 1. -/
theorem C10_witness :
    (Crawl.Scraper.extract_next_links sctxEx Crawl.Scraper.initScrState
      "http://a.edu/r1" pReject).1 = none ∧
    Crawl.Scraper.get_uniquePages_num
      (Crawl.Scraper.extract_next_links sctxEx Crawl.Scraper.initScrState
        "http://a.edu/r1" pReject).2 = 1 :=
  ⟨by decide,
   (C10_seen_before_checks sctxEx Crawl.Scraper.initScrState
     "http://a.edu/r1" pReject (by decide)).2.1⟩

namespace Crawl.Frontier

/-! ## Supporting definitions and lemmas for claim C3 (sequence numbers) -/

/-- All entries of every domain queue satisfy `P`. -/
def QueuesP (P : QEntry → Prop) (l : List (String × List QEntry)) : Prop :=
  ∀ p ∈ l, ∀ e ∈ p.2, P e

theorem QueuesP_assocSet_cons (P : QEntry → Prop)
    (l : List (String × List QEntry)) (d : String) (x : QEntry) :
    QueuesP P l → P x →
    QueuesP P (assocSet l d (x :: (l.lookup d).getD [])) := by
  induction l with
  | nil =>
    intro _ hx p hp e he
    simp [assocSet] at hp
    subst hp
    simp at he
    subst he
    exact hx
  | cons hd tl ih =>
    intro hP hx
    obtain ⟨k, q⟩ := hd
    by_cases hk : k = d
    · subst hk
      simp only [assocSet, if_pos rfl, List.lookup_cons, beq_self_eq_true,
        Option.getD_some]
      intro p hp e he
      rcases List.mem_cons.mp hp with heq | hp'
      · subst heq
        rcases List.mem_cons.mp he with heq' | he'
        · subst heq'
          exact hx
        · exact hP (k, q) (List.mem_cons_self _ _) e he'
      · exact hP p (List.mem_cons_of_mem _ hp') e he
    · simp only [assocSet, if_neg hk, List.lookup_cons,
        beq_eq_false_iff_ne.mpr (fun h => hk h.symm)]
      intro p hp e he
      rcases List.mem_cons.mp hp with heq | hp'
      · subst heq
        exact hP (k, q) (List.mem_cons_self _ _) e he
      · exact ih (fun p' hp'' e' he' => hP p' (List.mem_cons_of_mem _ hp'') e' he')
          hx p hp' e he

theorem QueuesP_add_to_memory (P : QEntry → Prop) (c : FCtx) (s : FState)
    (url : String) (cnt : Nat) (sc t : Int)
    (hP : QueuesP P s.domain_queues) (hx : P ⟨-sc, cnt, url⟩) :
    QueuesP P (add_to_memory c s url cnt sc t).domain_queues := by
  rw [add_to_memory_queues]
  exact QueuesP_assocSet_cons P _ _ _ hP hx

/-- The property claim C3 cares about: a queue entry comes from an
incomplete 4-tuple record of the store whose URL passed `is_valid`. -/
def fromIncompleteRec (saved : List (String × SaveRec))
    (isValid : String → Bool) (e : QEntry) : Prop :=
  ∃ k sc, (k, SaveRec.long e.url false sc e.count) ∈ saved ∧
    isValid e.url = true

theorem parse_fold_queues (c : FCtx) (isValid : String → Bool) (tPush : Int)
    (saved : List (String × SaveRec)) (l : List (String × SaveRec))
    (acc : FState × Nat × Nat)
    (hsub : ∀ kv ∈ l, kv ∈ saved)
    (hacc : QueuesP (fromIncompleteRec saved isValid) acc.1.domain_queues) :
    QueuesP (fromIncompleteRec saved isValid)
      ((l.foldl (parseStep c isValid tPush) acc).1.domain_queues) := by
  induction l generalizing acc with
  | nil => exact hacc
  | cons kv l ih =>
    rw [List.foldl_cons]
    refine ih _ (fun kv' h => hsub kv' (List.mem_cons_of_mem _ h)) ?_
    obtain ⟨k, rec⟩ := kv
    cases rec with
    | short url comp => exact hacc
    | long url comp sc cnt =>
      cases hcond : (!comp && isValid url) with
      | true =>
        obtain ⟨hcomp, hval⟩ : comp = false ∧ isValid url = true := by
          simpa using hcond
        simp only [parseStep, hcond, if_true]
        refine QueuesP_add_to_memory _ c _ _ _ _ _ hacc ?_
        refine ⟨k, sc, ?_, hval⟩
        have := hsub (k, SaveRec.long url comp sc cnt) (List.mem_cons_self _ _)
        rw [hcomp] at this
        exact this
      | false =>
        simp only [parseStep, hcond, if_false]
        exact hacc

theorem parseStep_max_mono (c : FCtx) (isValid : String → Bool) (tPush : Int)
    (acc : FState × Nat × Nat) (kv : String × SaveRec) :
    acc.2.2 ≤ (parseStep c isValid tPush acc kv).2.2 := by
  obtain ⟨k, rec⟩ := kv
  cases rec with
  | short url comp => exact le_refl _
  | long url comp sc cnt =>
    cases hcond : (!comp && isValid url) with
    | true =>
      simp only [parseStep, hcond, if_true]
      exact le_max_left _ _
    | false =>
      simp only [parseStep, hcond, if_false]
      exact le_refl _

theorem parse_fold_max (c : FCtx) (isValid : String → Bool) (tPush : Int)
    (l : List (String × SaveRec)) (acc : FState × Nat × Nat) :
    acc.2.2 ≤ (l.foldl (parseStep c isValid tPush) acc).2.2 ∧
    ∀ kv ∈ l, ∀ url sc cnt, kv.2 = SaveRec.long url false sc cnt →
      isValid url = true →
      cnt ≤ (l.foldl (parseStep c isValid tPush) acc).2.2 := by
  induction l generalizing acc with
  | nil => exact ⟨le_refl _, by simp⟩
  | cons kv l ih =>
    rw [List.foldl_cons]
    constructor
    · exact (parseStep_max_mono c isValid tPush acc kv).trans (ih _).1
    · intro kv' hkv' url sc cnt heq hval
      rcases List.mem_cons.mp hkv' with rfl | h
      · have hstep : cnt ≤ (parseStep c isValid tPush acc kv').2.2 := by
          obtain ⟨k, rec⟩ := kv'
          simp only at heq
          subst heq
          have hcond : (!false && isValid url) = true := by simp [hval]
          simp only [parseStep, hcond, if_true]
          exact le_max_right _ _
        exact hstep.trans (ih _).1
      · exact (ih _).2 kv' h url sc cnt heq hval

/-- Every count currently recorded in the store is at most
`entry_count` (the invariant `add_url` maintains). -/
def SaveCountsLe (s : FState) : Prop :=
  ∀ k url comp sc cnt,
    (k, SaveRec.long url comp sc cnt) ∈ s.save → cnt ≤ s.entry_count

end Crawl.Frontier

/-! ## Claim C3 -/

namespace Crawl.Frontier

/-- The C3 restart scenario, step by step: enqueue one URL (sequence
number 1), dispatch it, mark it complete, replay the persisted store as
a restart without the restart flag would, then enqueue a fresh URL. -/
def c3s1 : FState := add_url cex initF "http://a.edu/1" 0 0

def c3s2 : FState := (dequeueStep cex c3s1 10 10).1

def c3s3 : FState := (mark_url_complete cex c3s2 "http://a.edu/1").1

def c3s4 : FState := parse_save_file cex (fun _ => true) c3s3.save 20

def c3s5 : FState := add_url cex c3s4 "http://a.edu/2" 0 20

end Crawl.Frontier

/-- C3 counterexample: sequence number 1 is persisted for the first
URL; completing it rewrites its record as the 2-tuple `(url, True)` —
*dropping* the score and sequence-number fields the claim says are
kept; the restart replay then resumes `entry_count` at 0, and the next
URL is assigned sequence number 1 again, which is not strictly greater
than the maximum sequence number (1) persisted before the restart. -/
theorem C3_counterexample :
    Crawl.Frontier.c3s1.save.lookup "http://a.edu/1" =
      some (Crawl.Frontier.SaveRec.long "http://a.edu/1" false 0 1) ∧
    (Crawl.Frontier.dequeueStep Crawl.Frontier.cex Crawl.Frontier.c3s1
        10 10).2.1 =
      Crawl.Frontier.DqResult.dispatched 10 "a.edu" "http://a.edu/1" false ∧
    Crawl.Frontier.c3s3.save =
      [("http://a.edu/1",
        Crawl.Frontier.SaveRec.short "http://a.edu/1" true)] ∧
    Crawl.Frontier.c3s4.entry_count = 0 ∧
    Crawl.Frontier.c3s5.save.lookup "http://a.edu/2" =
      some (Crawl.Frontier.SaveRec.long "http://a.edu/2" false 0 1) ∧
    ¬(1 > 1) := by
  decide

/-- C3 amended: within a run, a fresh enqueue is assigned
`entry_count + 1`, strictly above every sequence number currently in
the store (given the store invariant); completing a URL rewrites its
record *without* the score and sequence-number fields; on a restart
without the restart flag, only incomplete 4-tuple records with valid
URLs are re-enqueued (in particular no completed URL), and the resumed
`entry_count` dominates exactly the sequence numbers of those
re-enqueued records — numbers of records that were completed before the
restart are forgotten and may be reassigned. -/
theorem C3_amended (c : Crawl.Frontier.FCtx) (s : Crawl.Frontier.FState)
    (u : String) (sc t : Int)
    (saved : List (String × Crawl.Frontier.SaveRec))
    (isValid : String → Bool) (tPush : Int)
    (hfresh : s.save.lookup (c.get_urlhash (c.normalize u)) = none)
    (hc : Crawl.Frontier.SaveCountsLe s) :
    ((Crawl.Frontier.add_url c s u sc t).save.lookup
        (c.get_urlhash (c.normalize u)) =
      some (Crawl.Frontier.SaveRec.long (c.normalize u) false sc
        (s.entry_count + 1)) ∧
      ∀ k url comp sc' cnt,
        (k, Crawl.Frontier.SaveRec.long url comp sc' cnt) ∈ s.save →
          cnt < s.entry_count + 1) ∧
    (∀ p ∈ (Crawl.Frontier.parse_save_file c isValid saved
        tPush).domain_queues, ∀ e ∈ p.2,
      Crawl.Frontier.fromIncompleteRec saved isValid e) ∧
    (∀ k url sc' cnt,
      (k, Crawl.Frontier.SaveRec.long url false sc' cnt) ∈ saved →
        isValid url = true →
        cnt ≤ (Crawl.Frontier.parse_save_file c isValid saved
          tPush).entry_count) := by
  refine ⟨⟨?_, ?_⟩, ?_, ?_⟩
  · rw [Crawl.Frontier.add_url_fresh_save c s u sc t hfresh,
      Crawl.lookup_append_left _ _ _ hfresh]
    simp [List.lookup_cons]
  · intro k url comp sc' cnt hmem
    exact Nat.lt_succ_of_le (hc k url comp sc' cnt hmem)
  · have h := Crawl.Frontier.parse_fold_queues c isValid tPush saved saved
      ({ Crawl.Frontier.initF with save := saved }, 0, 0)
      (fun kv h => h) (by intro p hp e he; simp [Crawl.Frontier.initF] at hp)
    intro p hp e he
    exact h p hp e he
  · intro k url sc' cnt hmem hval
    have h := (Crawl.Frontier.parse_fold_max c isValid tPush saved
      ({ Crawl.Frontier.initF with save := saved }, 0, 0)).2
      (k, Crawl.Frontier.SaveRec.long url false sc' cnt) hmem url sc' cnt rfl hval
    exact h

/-- C3 amended, witnessed at a concrete input: replaying a store with
one incomplete record (sequence number 5) and one completed 2-tuple
record resumes `entry_count` at least at 5. -/
theorem C3_amended_witness :
    5 ≤ (Crawl.Frontier.parse_save_file Crawl.Frontier.cex (fun _ => true)
      [("h1", Crawl.Frontier.SaveRec.long "http://a.edu/1" false 0 5),
       ("h2", Crawl.Frontier.SaveRec.short "http://a.edu/2" true)]
      0).entry_count :=
  (C3_amended Crawl.Frontier.cex Crawl.Frontier.initF "http://a.edu/9" 0 0
      [("h1", Crawl.Frontier.SaveRec.long "http://a.edu/1" false 0 5),
       ("h2", Crawl.Frontier.SaveRec.short "http://a.edu/2" true)]
      (fun _ => true) 0 rfl
      (by intro k url comp sc cnt hmem; simp [Crawl.Frontier.initF] at hmem)
    ).2.2 "h1" "http://a.edu/1" 0 5 (by simp) rfl

namespace Crawl.Frontier

/-! ## Supporting lemmas for claims C1 and C2 (the scheduler machine)

The politeness and termination claims are trace properties of `runF`.
The invariant `Inv` below relates a reachable frontier state to the
dispatch log produced so far; its preservation across every event is
the heart of both proofs. -/

/-- A fold that repeatedly chooses between the accumulator and the next
element lands on an element of the list (with the seed in front). -/
theorem foldl_choice_mem {α : Type} (step : α → α → Bool) (a : α)
    (as : List α) :
    (as.foldl (fun m y => if step y m then y else m) a) ∈ a :: as := by
  induction as generalizing a with
  | nil => simp
  | cons b bs ih =>
    rw [List.foldl_cons]
    by_cases hb : step b a = true
    · rw [if_pos hb]
      rcases List.mem_cons.mp (ih b) with h | h
      · rw [h]
        exact List.mem_cons_of_mem _ (List.mem_cons_self _ _)
      · exact List.mem_cons_of_mem _ (List.mem_cons_of_mem _ h)
    · rw [if_neg hb]
      rcases List.mem_cons.mp (ih a) with h | h
      · rw [h]
        exact List.mem_cons_self _ _
      · exact List.mem_cons_of_mem _ (List.mem_cons_of_mem _ h)

theorem heapMin?_eq_none (l : List (Int × String)) :
    heapMin? l = none ↔ l = [] := by
  cases l <;> simp [heapMin?]

theorem heapMin?_mem (l : List (Int × String)) (x : Int × String)
    (h : heapMin? l = some x) : x ∈ l := by
  cases l with
  | nil => simp [heapMin?] at h
  | cons a as =>
    simp only [heapMin?, Option.some_inj] at h
    rw [← h]
    exact foldl_choice_mem heapLt a as

theorem qMin?_eq_none (l : List QEntry) : qMin? l = none ↔ l = [] := by
  cases l <;> simp [qMin?]

theorem qMin?_mem (l : List QEntry) (x : QEntry) (h : qMin? l = some x) :
    x ∈ l := by
  cases l with
  | nil => simp [qMin?] at h
  | cons a as =>
    simp only [qMin?, Option.some_inj] at h
    rw [← h]
    exact foldl_choice_mem qLt a as

/-- `lookup` finds an actual element of the association list. -/
theorem lookup_mem {β : Type} (l : List (String × β)) (k : String) (v : β)
    (h : l.lookup k = some v) : (k, v) ∈ l := by
  induction l with
  | nil => simp at h
  | cons hd tl ih =>
    obtain ⟨k', v'⟩ := hd
    by_cases hk : k = k'
    · subst hk
      simp [List.lookup_cons] at h
      subst h
      exact List.mem_cons_self _ _
    · simp only [List.lookup_cons, beq_eq_false_iff_ne.mpr hk] at h
      exact List.mem_cons_of_mem _ (ih h)

theorem lookup_assocSet_self {β : Type} (l : List (String × β)) (k : String)
    (v : β) : (assocSet l k v).lookup k = some v := by
  induction l with
  | nil => simp [assocSet, List.lookup_cons]
  | cons hd tl ih =>
    obtain ⟨k', v'⟩ := hd
    by_cases hk : k' = k
    · subst hk
      simp [assocSet, List.lookup_cons]
    · simp only [assocSet, if_neg hk, List.lookup_cons,
        beq_eq_false_iff_ne.mpr (fun h => hk h.symm)]
      exact ih

theorem lookup_assocSet_ne {β : Type} (l : List (String × β)) (k k' : String)
    (v : β) (hne : k' ≠ k) : (assocSet l k v).lookup k' = l.lookup k' := by
  induction l with
  | nil => simp [assocSet, List.lookup_cons, beq_eq_false_iff_ne.mpr hne]
  | cons hd tl ih =>
    obtain ⟨k'', v''⟩ := hd
    by_cases hk : k'' = k
    · subst hk
      simp [assocSet, List.lookup_cons, beq_eq_false_iff_ne.mpr hne]
    · simp only [assocSet, if_neg hk, List.lookup_cons]
      by_cases h2 : k' = k''
      · subst h2
        simp
      · simp only [beq_eq_false_iff_ne.mpr h2]
        exact ih

theorem lookup_assocErase_ne {β : Type} (l : List (String × β)) (k k' : String)
    (hne : k' ≠ k) : (assocErase l k).lookup k' = l.lookup k' := by
  induction l with
  | nil => simp [assocErase]
  | cons hd tl ih =>
    obtain ⟨k'', v''⟩ := hd
    by_cases hk : k'' = k
    · subst hk
      simp [assocErase, List.lookup_cons, beq_eq_false_iff_ne.mpr hne]
    · simp only [assocErase, if_neg hk, List.lookup_cons]
      by_cases h2 : k' = k''
      · subst h2
        simp
      · simp only [beq_eq_false_iff_ne.mpr h2]
        exact ih

/-- Membership in `assocSet` when the keys are distinct. -/
theorem mem_assocSet_elim {β : Type} (l : List (String × β)) (k : String)
    (v : β) (p : String × β) (hnd : (l.map Prod.fst).Nodup)
    (hp : p ∈ assocSet l k v) : p = (k, v) ∨ (p ∈ l ∧ p.1 ≠ k) := by
  induction l with
  | nil =>
    simp [assocSet] at hp
    exact Or.inl hp
  | cons hd tl ih =>
    obtain ⟨k', v'⟩ := hd
    simp only [List.map_cons, List.nodup_cons] at hnd
    by_cases hk : k' = k
    · subst hk
      simp only [assocSet, if_pos rfl] at hp
      rcases List.mem_cons.mp hp with rfl | hp'
      · exact Or.inl rfl
      · right
        refine ⟨List.mem_cons_of_mem _ hp', ?_⟩
        intro hpk
        exact hnd.1 (hpk ▸ List.mem_map_of_mem Prod.fst hp')
    · simp only [assocSet, if_neg hk] at hp
      rcases List.mem_cons.mp hp with rfl | hp'
      · exact Or.inr ⟨List.mem_cons_self _ _, hk⟩
      · rcases ih hnd.2 hp' with h | ⟨h1, h2⟩
        · exact Or.inl h
        · exact Or.inr ⟨List.mem_cons_of_mem _ h1, h2⟩

/-- Membership in `assocErase`. -/
theorem mem_assocErase_elim {β : Type} (l : List (String × β)) (k : String)
    (p : String × β) (hnd : (l.map Prod.fst).Nodup)
    (hp : p ∈ assocErase l k) : p ∈ l ∧ p.1 ≠ k := by
  induction l with
  | nil => simp [assocErase] at hp
  | cons hd tl ih =>
    obtain ⟨k', v'⟩ := hd
    simp only [List.map_cons, List.nodup_cons] at hnd
    by_cases hk : k' = k
    · subst hk
      simp only [assocErase, if_pos rfl] at hp
      refine ⟨List.mem_cons_of_mem _ hp, ?_⟩
      intro hpk
      exact hnd.1 (hpk ▸ List.mem_map_of_mem Prod.fst hp)
    · simp only [assocErase, if_neg hk] at hp
      rcases List.mem_cons.mp hp with rfl | hp'
      · exact ⟨List.mem_cons_self _ _, hk⟩
      · obtain ⟨h1, h2⟩ := ih hnd.2 hp'
        exact ⟨List.mem_cons_of_mem _ h1, h2⟩

theorem keys_assocSet_nodup {β : Type} (l : List (String × β)) (k : String)
    (v : β) (hnd : (l.map Prod.fst).Nodup) :
    ((assocSet l k v).map Prod.fst).Nodup := by
  induction l with
  | nil => simp [assocSet]
  | cons hd tl ih =>
    obtain ⟨k', v'⟩ := hd
    simp only [List.map_cons, List.nodup_cons] at hnd
    by_cases hk : k' = k
    · subst hk
      simpa [assocSet] using hnd
    · simp only [assocSet, if_neg hk, List.map_cons, List.nodup_cons]
      refine ⟨?_, ih hnd.2⟩
      intro hmem
      obtain ⟨p, hp, hpk⟩ := List.mem_map.mp hmem
      rcases mem_assocSet_elim tl k v p hnd.2 hp with rfl | ⟨h1, -⟩
      · exact hk hpk.symm
      · exact hnd.1 (hpk ▸ List.mem_map_of_mem Prod.fst h1)

theorem keys_assocErase_nodup {β : Type} (l : List (String × β)) (k : String)
    (hnd : (l.map Prod.fst).Nodup) :
    ((assocErase l k).map Prod.fst).Nodup := by
  induction l with
  | nil => simp [assocErase]
  | cons hd tl ih =>
    obtain ⟨k', v'⟩ := hd
    simp only [List.map_cons, List.nodup_cons] at hnd
    by_cases hk : k' = k
    · subst hk
      simpa [assocErase] using hnd.2
    · simp only [assocErase, if_neg hk, List.map_cons, List.nodup_cons]
      refine ⟨?_, ih hnd.2⟩
      intro hmem
      obtain ⟨p, hp, hpk⟩ := List.mem_map.mp hmem
      obtain ⟨h1, -⟩ := mem_assocErase_elim tl k p hnd.2 hp
      exact hnd.1 (hpk ▸ List.mem_map_of_mem Prod.fst h1)

end Crawl.Frontier

namespace Crawl.Frontier

/-- The domains currently scheduled (the heap's second components). -/
def heapDoms (s : FState) : List String := s.domain_heap.map Prod.snd

/-- The most recent dispatch of domain `d` in a log. -/
def lastFiltered (past : List DispatchRec) (d : String) : Option DispatchRec :=
  (past.filter (fun r => r.domain = d)).getLast?

/-- The politeness relation between consecutive dispatches of one
domain bucket: when the earlier dispatch rescheduled the domain (its
queue was still nonempty), the later one comes at least
`politenessDelay` after it. -/
def polR (c : FCtx) (r1 r2 : DispatchRec) : Prop :=
  r1.repushed = true → r1.time + c.time_delay ≤ r2.time

/-- The record a dequeue outcome contributes to the dispatch log. -/
def recOf : DqResult → List DispatchRec
  | .dispatched t d u rp => [⟨t, d, u, rp⟩]
  | _ => []

/-- The reachable-state invariant of the scheduler, relative to the
dispatch log produced so far:
* each domain has at most one schedule entry, and `domains_in_heap`
  is exactly the set of scheduled domains;
* a schedule entry of a domain whose last dispatch rescheduled it lies
  at least `politenessDelay` after that dispatch;
* a domain whose last dispatch rescheduled it still has a nonempty
  queue;
* all queues are nonempty, every queued domain is scheduled, and the
  queue keys are distinct. -/
structure Inv (c : FCtx) (s : FState) (past : List DispatchRec) : Prop where
  heapNodup : (heapDoms s).Nodup
  inHeapNodup : s.domains_in_heap.Nodup
  inHeapIff : ∀ d, d ∈ s.domains_in_heap ↔ d ∈ heapDoms s
  heapBound : ∀ nt d, (nt, d) ∈ s.domain_heap →
    ∀ r, lastFiltered past d = some r → r.repushed = true →
      r.time + c.time_delay ≤ nt
  repushLive : ∀ d r, lastFiltered past d = some r → r.repushed = true →
    ∃ q, s.domain_queues.lookup d = some q ∧ q ≠ []
  queuesNE : ∀ p ∈ s.domain_queues, p.2 ≠ []
  queuesSched : ∀ p ∈ s.domain_queues, p.1 ∈ heapDoms s
  keysNodup : (s.domain_queues.map Prod.fst).Nodup

theorem Inv_initF (c : FCtx) : Inv c initF [] := by
  constructor <;> simp [initF, heapDoms, lastFiltered]

/-- `Inv` only inspects the three scheduling fields. -/
theorem Inv_congr (c : FCtx) (s s' : FState) (past : List DispatchRec)
    (hq : s'.domain_queues = s.domain_queues)
    (hh : s'.domain_heap = s.domain_heap)
    (hi : s'.domains_in_heap = s.domains_in_heap)
    (h : Inv c s past) : Inv c s' past := by
  obtain ⟨h1, h2, h3, h4, h5, h6, h7, h8⟩ := h
  exact ⟨by rw [heapDoms, hh]; exact h1, by rw [hi]; exact h2,
    by rw [hi, heapDoms, hh]; exact h3, by rw [hh]; exact h4,
    by rw [hq]; exact h5, by rw [hq]; exact h6,
    by rw [hq, heapDoms, hh]; exact h7, by rw [hq]; exact h8⟩

theorem lastFiltered_append_self (past : List DispatchRec) (rec : DispatchRec) :
    lastFiltered (past ++ [rec]) rec.domain = some rec := by
  unfold lastFiltered
  rw [List.filter_append]
  simp [List.getLast?_append]

theorem lastFiltered_append_ne (past : List DispatchRec) (rec : DispatchRec)
    (d : String) (hne : rec.domain ≠ d) :
    lastFiltered (past ++ [rec]) d = lastFiltered past d := by
  unfold lastFiltered
  rw [List.filter_append]
  simp [hne]

theorem filter_append_self (past : List DispatchRec) (rec : DispatchRec) :
    (past ++ [rec]).filter (fun x => x.domain = rec.domain) =
      past.filter (fun x => x.domain = rec.domain) ++ [rec] := by
  rw [List.filter_append]
  simp

theorem filter_append_ne (past : List DispatchRec) (rec : DispatchRec)
    (d : String) (hne : rec.domain ≠ d) :
    (past ++ [rec]).filter (fun x => x.domain = d) =
      past.filter (fun x => x.domain = d) := by
  rw [List.filter_append]
  simp [hne]

theorem add_to_memory_heap (c : FCtx) (s : FState) (url : String)
    (n : Nat) (sc t : Int) :
    (add_to_memory c s url n sc t).domain_heap =
      (if get_domain c s url ∈ s.domains_in_heap then s.domain_heap
       else (t, get_domain c s url) :: s.domain_heap) := by
  by_cases h : get_domain c s url ∈ s.domains_in_heap <;>
    simp [add_to_memory, h]

theorem add_to_memory_inHeap (c : FCtx) (s : FState) (url : String)
    (n : Nat) (sc t : Int) :
    (add_to_memory c s url n sc t).domains_in_heap =
      (if get_domain c s url ∈ s.domains_in_heap then s.domains_in_heap
       else get_domain c s url :: s.domains_in_heap) := by
  by_cases h : get_domain c s url ∈ s.domains_in_heap <;>
    simp [add_to_memory, h]

/-- `_add_to_memory` preserves the invariant (the log is unchanged). -/
theorem Inv_add_to_memory (c : FCtx) (s : FState) (past : List DispatchRec)
    (url : String) (n : Nat) (sc t : Int) (h : Inv c s past) :
    Inv c (add_to_memory c s url n sc t) past := by
  set d0 := get_domain c s url with hd0
  have hq := add_to_memory_queues c s url n sc t
  have hh := add_to_memory_heap c s url n sc t
  have hi := add_to_memory_inHeap c s url n sc t
  by_cases hmem : d0 ∈ s.domains_in_heap
  · rw [if_pos hmem] at hh hi
    refine ⟨?_, ?_, ?_, ?_, ?_, ?_, ?_, ?_⟩
    · rw [heapDoms, hh]; exact h.heapNodup
    · rw [hi]; exact h.inHeapNodup
    · intro d; rw [hi, heapDoms, hh]; exact h.inHeapIff d
    · intro nt d hin r hl hr
      rw [hh] at hin
      exact h.heapBound nt d hin r hl hr
    · intro d r hl hr
      rw [hq]
      by_cases hdd : d = d0
      · subst hdd
        exact ⟨_, lookup_assocSet_self _ _ _, by simp⟩
      · rw [lookup_assocSet_ne _ _ _ _ hdd]
        exact h.repushLive d r hl hr
    · intro p hp
      rw [hq] at hp
      rcases mem_assocSet_elim _ _ _ p h.keysNodup hp with rfl | ⟨h1, -⟩
      · simp
      · exact h.queuesNE p h1
    · intro p hp
      rw [heapDoms, hh]
      rw [hq] at hp
      rcases mem_assocSet_elim _ _ _ p h.keysNodup hp with rfl | ⟨h1, -⟩
      · exact (h.inHeapIff d0).mp hmem
      · exact h.queuesSched p h1
    · rw [hq]; exact keys_assocSet_nodup _ _ _ h.keysNodup
  · rw [if_neg hmem] at hh hi
    have hnotdoms : d0 ∉ heapDoms s := fun hc => hmem ((h.inHeapIff d0).mpr hc)
    refine ⟨?_, ?_, ?_, ?_, ?_, ?_, ?_, ?_⟩
    · rw [heapDoms, hh]
      simp only [List.map_cons, List.nodup_cons]
      exact ⟨hnotdoms, h.heapNodup⟩
    · rw [hi]
      exact List.nodup_cons.mpr ⟨hmem, h.inHeapNodup⟩
    · intro d
      rw [hi, heapDoms, hh]
      simp only [List.mem_cons, List.map_cons]
      constructor
      · rintro (rfl | hd) 
        · exact Or.inl rfl
        · exact Or.inr ((h.inHeapIff d).mp hd)
      · rintro (rfl | hd)
        · exact Or.inl rfl
        · exact Or.inr ((h.inHeapIff d).mpr hd)
    · intro nt d hin r hl hr
      rw [hh] at hin
      rcases List.mem_cons.mp hin with heq | hin'
      · obtain ⟨q, hlk, hqne⟩ := h.repushLive d r hl hr
        exfalso
        have hmemq := h.queuesSched (d, q) (lookup_mem _ _ _ hlk)
        have hdd0 : d = get_domain c s url := congrArg Prod.snd heq
        rw [hdd0] at hmemq
        exact hnotdoms hmemq
      · exact h.heapBound nt d hin' r hl hr
    · intro d r hl hr
      rw [hq]
      by_cases hdd : d = d0
      · subst hdd
        exact ⟨_, lookup_assocSet_self _ _ _, by simp⟩
      · rw [lookup_assocSet_ne _ _ _ _ hdd]
        exact h.repushLive d r hl hr
    · intro p hp
      rw [hq] at hp
      rcases mem_assocSet_elim _ _ _ p h.keysNodup hp with rfl | ⟨h1, -⟩
      · simp
      · exact h.queuesNE p h1
    · intro p hp
      rw [heapDoms, hh]
      rw [hq] at hp
      simp only [List.map_cons, List.mem_cons]
      rcases mem_assocSet_elim _ _ _ p h.keysNodup hp with rfl | ⟨h1, -⟩
      · exact Or.inl rfl
      · exact Or.inr (h.queuesSched p h1)
    · rw [hq]; exact keys_assocSet_nodup _ _ _ h.keysNodup

/-- `add_url` preserves the invariant. -/
theorem Inv_add_url (c : FCtx) (s : FState) (past : List DispatchRec)
    (u : String) (sc t : Int) (h : Inv c s past) :
    Inv c (add_url c s u sc t) past := by
  unfold add_url
  by_cases hk : ((s.save.lookup (c.get_urlhash (c.normalize u))).isSome : Bool) = true
  · rw [if_pos hk]
    exact h
  · rw [if_neg hk]
    apply Inv_add_to_memory
    have hd : get_domain c { s with
        entry_count := s.entry_count + 1, total_count := s.total_count + 1,
        save := s.save ++ [(c.get_urlhash (c.normalize u),
          SaveRec.long (c.normalize u) false sc (s.entry_count + 1))] }
        (c.normalize u) = get_domain c s (c.normalize u) := rfl
    exact Inv_congr c s _ past rfl rfl rfl h

/-- `mark_url_complete` does not touch the scheduling fields. -/
theorem mark_fields (c : FCtx) (s : FState) (u : String) :
    (mark_url_complete c s u).1.domain_queues = s.domain_queues ∧
    (mark_url_complete c s u).1.domain_heap = s.domain_heap ∧
    (mark_url_complete c s u).1.domains_in_heap = s.domains_in_heap := by
  unfold mark_url_complete
  by_cases hk : (s.save.lookup (c.get_urlhash u)).isNone <;> simp [hk]

theorem Inv_mark (c : FCtx) (s : FState) (past : List DispatchRec)
    (u : String) (h : Inv c s past) :
    Inv c (mark_url_complete c s u).1 past := by
  obtain ⟨h1, h2, h3⟩ := mark_fields c s u
  exact Inv_congr c s _ past h1 h2 h3 h

end Crawl.Frontier

namespace Crawl.Frontier

/-- With distinct keys, membership determines `lookup`. -/
theorem nodup_lookup_of_mem {β : Type} (l : List (String × β)) (k : String)
    (v : β) (hnd : (l.map Prod.fst).Nodup) (hm : (k, v) ∈ l) :
    l.lookup k = some v := by
  induction l with
  | nil => simp at hm
  | cons hd tl ih =>
    obtain ⟨k', v'⟩ := hd
    simp only [List.map_cons, List.nodup_cons] at hnd
    rcases List.mem_cons.mp hm with heq | hm'
    · rw [← heq]
      simp [List.lookup_cons]
    · have hkne : k ≠ k' := by
        rintro rfl
        exact hnd.1 (List.mem_map_of_mem Prod.fst hm')
      simp only [List.lookup_cons, beq_eq_false_iff_ne.mpr hkne]
      exact ih hnd.2 hm'

theorem dequeueStep_eq_none (c : FCtx) (s : FState) (now tRe : Int)
    (hmin : heapMin? s.domain_heap = none) :
    dequeueStep c s now tRe =
      (if s.active_workers = 0 then (s, .done, true)
       else (s, .waitBusy, false)) := by
  unfold dequeueStep
  rw [hmin]

theorem dequeueStep_eq_wait (c : FCtx) (s : FState) (now tRe : Int)
    (nt : Int) (d0 : String)
    (hmin : heapMin? s.domain_heap = some (nt, d0)) (hlt : ¬ now ≥ nt) :
    dequeueStep c s now tRe = (s, .waitTime, false) := by
  unfold dequeueStep
  rw [hmin]
  simp only [if_neg hlt]

theorem dequeueStep_eq_stale (c : FCtx) (s : FState) (now tRe : Int)
    (nt : Int) (d0 : String)
    (hmin : heapMin? s.domain_heap = some (nt, d0)) (hge : now ≥ nt)
    (hq : qMin? ((s.domain_queues.lookup d0).getD []) = none) :
    dequeueStep c s now tRe =
      ({ s with domain_heap := s.domain_heap.erase (nt, d0),
                domains_in_heap := s.domains_in_heap.erase d0 },
       .stale d0, false) := by
  unfold dequeueStep
  rw [hmin]
  simp only [if_pos hge]
  rw [hq]

theorem dequeueStep_eq_dispatch (c : FCtx) (s : FState) (now tRe : Int)
    (nt : Int) (d0 : String) (e : QEntry)
    (hmin : heapMin? s.domain_heap = some (nt, d0)) (hge : now ≥ nt)
    (hq : qMin? ((s.domain_queues.lookup d0).getD []) = some e) :
    dequeueStep c s now tRe =
      ((if ((s.domain_queues.lookup d0).getD []).erase e = [] then
          { s with domain_heap := s.domain_heap.erase (nt, d0),
                   domains_in_heap := s.domains_in_heap.erase d0,
                   domain_queues := assocErase s.domain_queues d0,
                   active_workers := s.active_workers + 1 }
        else
          { s with domain_heap :=
                     (tRe + c.time_delay, d0) :: s.domain_heap.erase (nt, d0),
                   domain_queues := assocSet s.domain_queues d0
                     (((s.domain_queues.lookup d0).getD []).erase e),
                   active_workers := s.active_workers + 1 }),
       .dispatched now d0 e.url
         (!(((s.domain_queues.lookup d0).getD []).erase e).isEmpty), false) := by
  unfold dequeueStep
  rw [hmin]
  simp only [if_pos hge]
  rw [hq]
  simp only
  rw [if_neg (by omega : ¬ now - (nt - c.time_delay) < c.time_delay)]

end Crawl.Frontier

namespace Crawl.Frontier

/-- `perm_cons_erase` for an arbitrary lawful `BEq` instance (the
derived product instance used by the embedding). -/
theorem perm_cons_erase' {α : Type} [BEq α] [LawfulBEq α] (l : List α)
    (x : α) (h : x ∈ l) : l.Perm (x :: l.erase x) := by
  induction l with
  | nil => simp at h
  | cons a as ih =>
    rw [List.erase_cons]
    by_cases hax : a = x
    · subst hax
      rw [if_pos (beq_self_eq_true a)]
    · rw [if_neg (by simpa using hax)]
      have hx : x ∈ as := by
        rcases List.mem_cons.mp h with rfl | h'
        · exact absurd rfl hax
        · exact h'
      exact ((ih hx).cons a).trans (List.Perm.swap x a _)

/-- One `get_tbd_url` loop iteration preserves the invariant and
extends every domain's dispatch chain politely. -/
theorem dequeueStep_inv (c : FCtx) (s : FState) (past : List DispatchRec)
    (now tRe : Int) (hok : now ≤ tRe) (hinv : Inv c s past)
    (hch : ∀ d, List.Chain' (polR c) (past.filter (fun x => x.domain = d))) :
    Inv c (dequeueStep c s now tRe).1
        (past ++ recOf (dequeueStep c s now tRe).2.1) ∧
    (∀ d, List.Chain' (polR c)
      ((past ++ recOf (dequeueStep c s now tRe).2.1).filter
        (fun x => x.domain = d))) := by
  cases hmin : heapMin? s.domain_heap with
  | none =>
    rw [dequeueStep_eq_none c s now tRe hmin]
    by_cases ha : s.active_workers = 0 <;>
      simp [ha, recOf, hinv, hch]
  | some ntd =>
    obtain ⟨nt, d0⟩ := ntd
    by_cases hge : now ≥ nt
    · have hmem : (nt, d0) ∈ s.domain_heap := heapMin?_mem _ _ hmin
      have hperm : s.domain_heap.Perm ((nt, d0) :: s.domain_heap.erase (nt, d0)) :=
        perm_cons_erase' _ _ hmem
      have hdperm : (heapDoms s).Perm
          (d0 :: (s.domain_heap.erase (nt, d0)).map Prod.snd) := by
        simpa [heapDoms] using hperm.map Prod.snd
      have hcons := List.nodup_cons.mp (hdperm.nodup_iff.mp hinv.heapNodup)
      have hd0notin : d0 ∉ (s.domain_heap.erase (nt, d0)).map Prod.snd := hcons.1
      have hd1nodup : ((s.domain_heap.erase (nt, d0)).map Prod.snd).Nodup := hcons.2
      have hmemIff : ∀ x, x ∈ heapDoms s ↔
          (x = d0 ∨ x ∈ (s.domain_heap.erase (nt, d0)).map Prod.snd) := by
        intro x
        rw [hdperm.mem_iff]
        simp
      cases hq : qMin? ((s.domain_queues.lookup d0).getD []) with
      | none =>
        rw [dequeueStep_eq_stale c s now tRe nt d0 hmin hge hq]
        have hnokey : ∀ p ∈ s.domain_queues, p.1 ≠ d0 := by
          intro p hp hpk
          have hlk : s.domain_queues.lookup p.1 = some p.2 :=
            nodup_lookup_of_mem _ _ _ hinv.keysNodup (by
              obtain ⟨a, b⟩ := p
              exact hp)
          rw [hpk] at hlk
          rw [hlk] at hq
          simp only [Option.getD_some] at hq
          exact hinv.queuesNE p hp ((qMin?_eq_none _).mp hq)
        refine ⟨⟨?_, ?_, ?_, ?_, ?_, ?_, ?_, ?_⟩, ?_⟩
        · exact hd1nodup
        · exact List.Nodup.erase d0 hinv.inHeapNodup
        · intro d
          rw [hinv.inHeapNodup.mem_erase_iff]
          constructor
          · rintro ⟨hne, hd⟩
            rcases (hmemIff d).mp ((hinv.inHeapIff d).mp hd) with rfl | h
            · exact absurd rfl hne
            · exact h
          · intro hd
            refine ⟨fun hdd => hd0notin (hdd ▸ hd), ?_⟩
            exact (hinv.inHeapIff d).mpr ((hmemIff d).mpr (Or.inr hd))
        · intro nt' d hin r hl hr
          simp only [List.append_nil, recOf] at hl
          exact hinv.heapBound nt' d (List.mem_of_mem_erase hin) r hl hr
        · intro d r hl hr
          simp only [List.append_nil, recOf] at hl
          exact hinv.repushLive d r hl hr
        · exact hinv.queuesNE
        · intro p hp
          rcases (hmemIff p.1).mp (hinv.queuesSched p hp) with heq | h
          · exact absurd heq (hnokey p hp)
          · exact h
        · exact hinv.keysNodup
        · intro d
          simpa [recOf] using hch d
      | some e =>
        rw [dequeueStep_eq_dispatch c s now tRe nt d0 e hmin hge hq]
        have hq0 : ∃ q0, s.domain_queues.lookup d0 = some q0 ∧
            qMin? q0 = some e := by
          cases hlk : s.domain_queues.lookup d0 with
          | none => rw [hlk] at hq; simp [qMin?] at hq
          | some q0 => rw [hlk] at hq; exact ⟨q0, rfl, by simpa using hq⟩
        obtain ⟨q0, hlk, hqm⟩ := hq0
        set q2 := ((s.domain_queues.lookup d0).getD []).erase e with hq2def
        have hq2eq : q2 = q0.erase e := by rw [hq2def, hlk]; rfl
        have hchext : ∀ (rp : Bool), ∀ d, List.Chain' (polR c)
            ((past ++ [(⟨now, d0, e.url, rp⟩ : DispatchRec)]).filter
              (fun x => x.domain = d)) := by
          intro rp d
          by_cases hdd : d0 = d
          · subst hdd
            have : (past ++ [(⟨now, d0, e.url, rp⟩ : DispatchRec)]).filter
                (fun x => x.domain = d0) =
                past.filter (fun x => x.domain = d0) ++
                  [⟨now, d0, e.url, rp⟩] :=
              filter_append_self past ⟨now, d0, e.url, rp⟩
            rw [this, List.chain'_append]
            refine ⟨hch d0, by simp, ?_⟩
            intro x hx y hy
            simp only [List.head?_cons, Option.mem_def, Option.some_inj] at hy
            subst hy
            intro hxr
            have hb := hinv.heapBound nt d0 hmem x hx hxr
            simp only
            omega
          · rw [filter_append_ne past _ d hdd]
            exact hch d
        by_cases hqe : q2 = []
        · rw [if_pos hqe]
          have hrp : (!q2.isEmpty) = false := by rw [hqe]; rfl
          rw [hrp]
          refine ⟨⟨?_, ?_, ?_, ?_, ?_, ?_, ?_, ?_⟩, ?_⟩
          · exact hd1nodup
          · exact List.Nodup.erase d0 hinv.inHeapNodup
          · intro d
            rw [hinv.inHeapNodup.mem_erase_iff]
            constructor
            · rintro ⟨hne, hd⟩
              rcases (hmemIff d).mp ((hinv.inHeapIff d).mp hd) with rfl | h
              · exact absurd rfl hne
              · exact h
            · intro hd
              refine ⟨fun hdd => hd0notin (hdd ▸ hd), ?_⟩
              exact (hinv.inHeapIff d).mpr ((hmemIff d).mpr (Or.inr hd))
          · intro nt' d hin r hl hr
            have hdne : d ≠ d0 := by
              rintro rfl
              exact hd0notin (List.mem_map_of_mem Prod.snd hin)
            rw [recOf, lastFiltered_append_ne past _ d (by simpa using hdne.symm)] at hl
            exact hinv.heapBound nt' d (List.mem_of_mem_erase hin) r hl hr
          · intro d r hl hr
            by_cases hdd : d = d0
            · subst hdd
              rw [recOf] at hl
              have : lastFiltered (past ++ [⟨now, d, e.url, false⟩]) d =
                  some ⟨now, d, e.url, false⟩ :=
                lastFiltered_append_self past ⟨now, d, e.url, false⟩
              rw [this] at hl
              obtain rfl := Option.some_inj.mp hl
              simp at hr
            · have hne0 : (⟨now, d0, e.url, false⟩ : DispatchRec).domain ≠ d :=
                fun h => hdd h.symm
              rw [recOf, lastFiltered_append_ne past _ d hne0] at hl
              obtain ⟨q, hq2, hne2⟩ := hinv.repushLive d r hl hr
              refine ⟨q, ?_, hne2⟩
              rw [lookup_assocErase_ne _ _ _ hdd]
              exact hq2
          · intro p hp
            obtain ⟨h1, -⟩ := mem_assocErase_elim _ _ p hinv.keysNodup hp
            exact hinv.queuesNE p h1
          · intro p hp
            obtain ⟨h1, h2⟩ := mem_assocErase_elim _ _ p hinv.keysNodup hp
            rcases (hmemIff p.1).mp (hinv.queuesSched p h1) with heq | h
            · exact absurd heq h2
            · exact h
          · exact keys_assocErase_nodup _ _ hinv.keysNodup
          · intro d
            exact hchext false d
        · rw [if_neg hqe]
          have hrp : (!q2.isEmpty) = true := by
            cases hqq : q2 with
            | nil => exact absurd hqq hqe
            | cons a as => rfl
          rw [hrp]
          refine ⟨⟨?_, ?_, ?_, ?_, ?_, ?_, ?_, ?_⟩, ?_⟩
          · rw [heapDoms]
            simp only [List.map_cons, List.nodup_cons]
            exact ⟨hd0notin, hd1nodup⟩
          · exact hinv.inHeapNodup
          · intro d
            rw [heapDoms]
            simp only [List.map_cons, List.mem_cons]
            rw [hinv.inHeapIff d, hmemIff d]
          · intro nt' d hin r hl hr
            rcases List.mem_cons.mp hin with heq | hin'
            · have hdd : d = d0 := congrArg Prod.snd heq
              have hnt' : nt' = tRe + c.time_delay := congrArg Prod.fst heq
              rw [recOf, hdd] at hl
              rw [lastFiltered_append_self past
                (⟨now, d0, e.url, true⟩ : DispatchRec)] at hl
              obtain rfl := Option.some_inj.mp hl
              dsimp only
              omega
            · have hdne : d ≠ d0 := by
                rintro rfl
                exact hd0notin (List.mem_map_of_mem Prod.snd hin')
              rw [recOf, lastFiltered_append_ne past _ d
                (by simpa using hdne.symm)] at hl
              exact hinv.heapBound nt' d (List.mem_of_mem_erase hin') r hl hr
          · intro d r hl hr
            by_cases hdd : d = d0
            · subst hdd
              refine ⟨q2, ?_, hqe⟩
              exact lookup_assocSet_self _ _ _
            · have hne0 : (⟨now, d0, e.url, true⟩ : DispatchRec).domain ≠ d :=
                fun h => hdd h.symm
              rw [recOf, lastFiltered_append_ne past _ d hne0] at hl
              obtain ⟨q, hq2, hne2⟩ := hinv.repushLive d r hl hr
              refine ⟨q, ?_, hne2⟩
              rw [lookup_assocSet_ne _ _ _ _ hdd]
              exact hq2
          · intro p hp
            rcases mem_assocSet_elim _ _ _ p hinv.keysNodup hp with rfl | ⟨h1, -⟩
            · exact hqe
            · exact hinv.queuesNE p h1
          · intro p hp
            rw [heapDoms]
            simp only [List.map_cons, List.mem_cons]
            rcases mem_assocSet_elim _ _ _ p hinv.keysNodup hp with rfl | ⟨h1, -⟩
            · exact Or.inl rfl
            · exact (hmemIff p.1).mp (hinv.queuesSched p h1)
          · exact keys_assocSet_nodup _ _ _ hinv.keysNodup
          · intro d
            exact hchext true d
    · rw [dequeueStep_eq_wait c s now tRe nt d0 hmin hge]
      refine ⟨?_, ?_⟩
      · simpa [recOf] using hinv
      · intro d
        simpa [recOf] using hch d

end Crawl.Frontier

namespace Crawl.Frontier

/-- Sanity condition on a single event's time samples: within one
`get_tbd_url` iteration the second `time.time()` sample is not earlier
than the first.  (No relation *between* events is needed for the
politeness result.) -/
def evOK : FEvent → Prop
  | .dequeue now tRe => now ≤ tRe
  | _ => True

theorem runF_cons (c : FCtx) (s : FState) (e : FEvent) (evs : List FEvent) :
    runF c s (e :: evs) =
      ((runF c (stepF c s e).1 evs).1,
        (stepF c s e).2.toList ++ (runF c (stepF c s e).1 evs).2) := rfl

theorem stepF_enqueue (c : FCtx) (s : FState) (url : String) (score tPush : Int) :
    stepF c s (.enqueue url score tPush) =
      (add_url c s url score tPush, none) := rfl

theorem stepF_complete (c : FCtx) (s : FState) (url : String) :
    stepF c s (.complete url) = ((mark_url_complete c s url).1, none) := rfl

theorem stepF_dequeue_fst (c : FCtx) (s : FState) (now tRe : Int) :
    (stepF c s (.dequeue now tRe)).1 = (dequeueStep c s now tRe).1 := by
  unfold stepF
  cases h : (dequeueStep c s now tRe).2.1 <;> simp [h]

theorem stepF_dequeue_toList (c : FCtx) (s : FState) (now tRe : Int) :
    (stepF c s (.dequeue now tRe)).2.toList =
      recOf (dequeueStep c s now tRe).2.1 := by
  unfold stepF recOf
  cases h : (dequeueStep c s now tRe).2.1 <;> simp [h]

/-- Every reachable state satisfies the invariant, and every domain's
dispatch log is politely chained. -/
theorem runF_inv (c : FCtx) (evs : List FEvent) (s : FState)
    (past : List DispatchRec)
    (hok : ∀ e ∈ evs, evOK e)
    (hinv : Inv c s past)
    (hch : ∀ d, List.Chain' (polR c) (past.filter (fun x => x.domain = d))) :
    Inv c (runF c s evs).1 (past ++ (runF c s evs).2) ∧
    ∀ d, List.Chain' (polR c)
      ((past ++ (runF c s evs).2).filter (fun x => x.domain = d)) := by
  induction evs generalizing s past with
  | nil =>
    constructor
    · simpa [runF] using hinv
    · intro d
      simpa [runF] using hch d
  | cons e evs ih =>
    rw [runF_cons]
    cases e with
    | enqueue url score tPush =>
      have h1 := Inv_add_url c s past url score tPush hinv
      have h2 := ih (add_url c s url score tPush) past
        (fun e he => hok e (List.mem_cons_of_mem _ he)) h1 hch
      simpa [stepF_enqueue] using h2
    | complete url =>
      have h1 := Inv_mark c s past url hinv
      have h2 := ih (mark_url_complete c s url).1 past
        (fun e he => hok e (List.mem_cons_of_mem _ he)) h1 hch
      simpa [stepF_complete] using h2
    | dequeue now tRe =>
      have hoknow : now ≤ tRe := hok _ (List.mem_cons_self _ _)
      have hd := dequeueStep_inv c s past now tRe hoknow hinv hch
      have h2 := ih (dequeueStep c s now tRe).1
        (past ++ recOf (dequeueStep c s now tRe).2.1)
        (fun e he => hok e (List.mem_cons_of_mem _ he)) hd.1 hd.2
      rw [stepF_dequeue_fst, stepF_dequeue_toList]
      constructor
      · have := h2.1
        rwa [List.append_assoc] at this
      · intro d
        have := h2.2 d
        rwa [List.append_assoc] at this

theorem add_to_memory_active (c : FCtx) (s : FState) (url : String)
    (n : Nat) (sc t : Int) :
    (add_to_memory c s url n sc t).active_workers = s.active_workers := by
  by_cases h : get_domain c s url ∈ s.domains_in_heap <;>
    simp [add_to_memory, h]

theorem add_url_active (c : FCtx) (s : FState) (u : String) (sc t : Int) :
    (add_url c s u sc t).active_workers = s.active_workers := by
  unfold add_url
  by_cases h : ((s.save.lookup (c.get_urlhash (c.normalize u))).isSome : Bool) = true
  · rw [if_pos h]
  · rw [if_neg h, add_to_memory_active]

theorem mark_active (c : FCtx) (s : FState) (u : String) :
    (mark_url_complete c s u).1.active_workers = s.active_workers - 1 := by
  unfold mark_url_complete
  by_cases h : (s.save.lookup (c.get_urlhash u)).isNone <;> simp [h]

theorem dequeue_active (c : FCtx) (s : FState) (now tRe : Int) :
    (dequeueStep c s now tRe).1.active_workers =
      s.active_workers + ((recOf (dequeueStep c s now tRe).2.1).length : Int) := by
  cases hmin : heapMin? s.domain_heap with
  | none =>
    rw [dequeueStep_eq_none c s now tRe hmin]
    by_cases ha : s.active_workers = 0 <;> simp [ha, recOf]
  | some ntd =>
    obtain ⟨nt, d0⟩ := ntd
    by_cases hge : now ≥ nt
    · cases hq : qMin? ((s.domain_queues.lookup d0).getD []) with
      | none =>
        rw [dequeueStep_eq_stale c s now tRe nt d0 hmin hge hq]
        simp [recOf]
      | some e =>
        rw [dequeueStep_eq_dispatch c s now tRe nt d0 e hmin hge hq]
        by_cases hqe : ((s.domain_queues.lookup d0).getD []).erase e = [] <;>
          simp [hqe, recOf]
    · rw [dequeueStep_eq_wait c s now tRe nt d0 hmin hge]
      simp [recOf]

/-- The `active_workers` counter equals the number of dispatches minus
the number of `mark_url_complete` calls. -/
theorem runF_active (c : FCtx) (evs : List FEvent) (s : FState) :
    (runF c s evs).1.active_workers =
      s.active_workers + ((runF c s evs).2.length : Int) -
        (countCompletes evs : Int) := by
  induction evs generalizing s with
  | nil => simp [runF, countCompletes]
  | cons e evs ih =>
    rw [runF_cons]
    cases e with
    | enqueue url score tPush =>
      have := ih (add_url c s url score tPush)
      simp only [stepF_enqueue, Option.toList_none, List.nil_append] at *
      rw [this, add_url_active]
      simp [countCompletes, List.countP_cons]
    | complete url =>
      have := ih (mark_url_complete c s url).1
      simp only [stepF_complete, Option.toList_none, List.nil_append] at *
      rw [this, mark_active]
      simp only [countCompletes, List.countP_cons]
      push_cast
      ring
    | dequeue now tRe =>
      have := ih (dequeueStep c s now tRe).1
      rw [stepF_dequeue_fst, stepF_dequeue_toList]
      simp only [List.length_append]
      rw [this, dequeue_active]
      simp only [countCompletes, List.countP_cons]
      push_cast
      ring

end Crawl.Frontier

/-! ## Claim C1 -/

namespace Crawl.Frontier

/-- The C1 violation trace: one URL per "batch".  The domain's queue
drains at the first dispatch (time 10), so the domain is dropped from
the schedule; a new URL for the same domain enqueued at time 11 makes
the domain immediately eligible, and it is dispatched at time 11 —
1 time unit after the previous dispatch, below the delay of 2. -/
def evs1 : List FEvent :=
  [.enqueue "http://a.edu/1" 0 0, .dequeue 10 10,
   .enqueue "http://a.edu/2" 0 11, .dequeue 11 11]

/-- A trace whose first dispatch reschedules the domain (its queue is
still nonempty), exercising the polite re-push path. -/
def evs2 : List FEvent :=
  [.enqueue "http://a.edu/1" 0 0, .enqueue "http://a.edu/2" 0 0,
   .dequeue 10 10, .dequeue 12 12]

end Crawl.Frontier

/-- C1 counterexample: on a legitimate schedule (time samples
nondecreasing along the trace), the frontier dispatches two URLs of the
same domain bucket `a.edu` at times 10 and 11 while the configured
politeness delay is 2 — refuting the unconditional claim.  The
violating dispatch is possible because the first dispatch emptied the
domain's queue, dropping the domain (and its politeness deadline) from
the schedule, and the later enqueue re-added it as immediately
eligible. -/
theorem C1_counterexample :
    (Crawl.Frontier.runF Crawl.Frontier.cex Crawl.Frontier.initF
        Crawl.Frontier.evs1).2 =
      [⟨10, "a.edu", "http://a.edu/1", false⟩,
       ⟨11, "a.edu", "http://a.edu/2", false⟩] ∧
    Crawl.Frontier.traceTimes Crawl.Frontier.evs1 = [0, 10, 10, 11, 11, 11] ∧
    List.Chain' (· ≤ ·) (Crawl.Frontier.traceTimes Crawl.Frontier.evs1) ∧
    (∀ e ∈ Crawl.Frontier.evs1, Crawl.Frontier.evOK e) ∧
    (11 : Int) - 10 < Crawl.Frontier.cex.time_delay := by
  refine ⟨by decide, by decide, ?_, ?_, by decide⟩
  · rw [show Crawl.Frontier.traceTimes Crawl.Frontier.evs1 =
      [0, 10, 10, 11, 11, 11] from by decide]
    norm_num [List.chain'_cons]
  · intro e he
    fin_cases he <;> norm_num [Crawl.Frontier.evOK]

/-- C1 amended: consecutive dispatches of the same domain bucket are at
least `politenessDelay` apart whenever the earlier dispatch left the
domain's queue nonempty (so the domain stayed scheduled at
`now + delay`); when the earlier dispatch drained the queue, the
domain leaves the schedule and a later re-enqueue may be dispatched
sooner.  Formally: in the dispatch log of any trace whose per-event
time samples are sane, every adjacent pair of same-domain dispatches
whose first component has `repushed = true` is separated by at least
the delay. -/
theorem C1_politeness (c : Crawl.Frontier.FCtx)
    (evs : List Crawl.Frontier.FEvent)
    (hok : ∀ e ∈ evs, Crawl.Frontier.evOK e) :
    ∀ d, List.Chain' (Crawl.Frontier.polR c)
      (((Crawl.Frontier.runF c Crawl.Frontier.initF evs).2).filter
        (fun r => r.domain = d)) := by
  have h := Crawl.Frontier.runF_inv c evs Crawl.Frontier.initF [] hok
    (Crawl.Frontier.Inv_initF c) (by intro d; simp)
  intro d
  simpa using h.2 d

/-- C1 amended, witnessed at a concrete trace: two same-domain URLs
enqueued together; the first dispatch (time 10) reschedules the domain
at 12, and the second dispatch happens at 12 — exactly the delay. -/
theorem C1_politeness_witness :
    List.Chain' (Crawl.Frontier.polR Crawl.Frontier.cex)
      (((Crawl.Frontier.runF Crawl.Frontier.cex Crawl.Frontier.initF
          Crawl.Frontier.evs2).2).filter (fun r => r.domain = "a.edu")) :=
  C1_politeness Crawl.Frontier.cex Crawl.Frontier.evs2
    (by intro e he; fin_cases he <;> norm_num [Crawl.Frontier.evOK]) "a.edu"

/-! ## Claim C2 -/

/-- C2: one `get_tbd_url` iteration at a reachable state returns `Done`
iff, at the instant of the check, the politeness schedule is empty and
`active_workers` is zero; and when it does, all domain queues are empty
as well, the number of dispatches handed out equals the number of
`mark_url_complete` calls (no checkout is outstanding), and the `Done`
path has called `cv.notify_all()` to wake the other blocked callers. -/
theorem C2_done_characterization (c : Crawl.Frontier.FCtx)
    (evs : List Crawl.Frontier.FEvent) (now tRe : Int)
    (hok : ∀ e ∈ evs, Crawl.Frontier.evOK e) :
    ((Crawl.Frontier.dequeueStep c
        (Crawl.Frontier.runF c Crawl.Frontier.initF evs).1 now tRe).2.1 =
          Crawl.Frontier.DqResult.done ↔
      ((Crawl.Frontier.runF c Crawl.Frontier.initF evs).1.domain_heap = [] ∧
        (Crawl.Frontier.runF c Crawl.Frontier.initF evs).1.active_workers = 0)) ∧
    ((Crawl.Frontier.dequeueStep c
        (Crawl.Frontier.runF c Crawl.Frontier.initF evs).1 now tRe).2.1 =
          Crawl.Frontier.DqResult.done →
      (Crawl.Frontier.runF c Crawl.Frontier.initF evs).1.domain_queues = [] ∧
      (((Crawl.Frontier.runF c Crawl.Frontier.initF evs).2.length : Int) =
        Crawl.Frontier.countCompletes evs) ∧
      (Crawl.Frontier.dequeueStep c
        (Crawl.Frontier.runF c Crawl.Frontier.initF evs).1 now tRe).2.2 = true) := by
  have hinv := (Crawl.Frontier.runF_inv c evs Crawl.Frontier.initF [] hok
    (Crawl.Frontier.Inv_initF c) (by intro d; simp)).1
  set s := (Crawl.Frontier.runF c Crawl.Frontier.initF evs).1 with hs
  have hiff : (Crawl.Frontier.dequeueStep c s now tRe).2.1 =
      Crawl.Frontier.DqResult.done ↔
      (s.domain_heap = [] ∧ s.active_workers = 0) := by
    constructor
    · intro hdone
      cases hmin : Crawl.Frontier.heapMin? s.domain_heap with
      | none =>
        rw [Crawl.Frontier.dequeueStep_eq_none c s now tRe hmin] at hdone
        by_cases ha : s.active_workers = 0
        · exact ⟨(Crawl.Frontier.heapMin?_eq_none _).mp hmin, ha⟩
        · rw [if_neg ha] at hdone
          simp at hdone
      | some ntd =>
        obtain ⟨nt, d0⟩ := ntd
        exfalso
        by_cases hge : now ≥ nt
        · cases hq : Crawl.Frontier.qMin?
              ((s.domain_queues.lookup d0).getD []) with
          | none =>
            rw [Crawl.Frontier.dequeueStep_eq_stale c s now tRe nt d0 hmin
              hge hq] at hdone
            simp at hdone
          | some e =>
            rw [Crawl.Frontier.dequeueStep_eq_dispatch c s now tRe nt d0 e
              hmin hge hq] at hdone
            simp at hdone
        · rw [Crawl.Frontier.dequeueStep_eq_wait c s now tRe nt d0 hmin
            hge] at hdone
          simp at hdone
    · rintro ⟨hheap, hact⟩
      have hmin : Crawl.Frontier.heapMin? s.domain_heap = none := by
        rw [hheap]
        rfl
      rw [Crawl.Frontier.dequeueStep_eq_none c s now tRe hmin, if_pos hact]
  refine ⟨hiff, fun hdone => ?_⟩
  obtain ⟨hheap, hact⟩ := hiff.mp hdone
  refine ⟨?_, ?_, ?_⟩
  · have hnomem : ∀ p ∈ s.domain_queues, False := by
      intro p hp
      have h2 := hinv.queuesSched p hp
      rw [Crawl.Frontier.heapDoms, hheap] at h2
      simp at h2
    cases hq : s.domain_queues with
    | nil => rfl
    | cons p ps =>
      exact ((hnomem p (by rw [hq]; exact List.mem_cons_self _ _))).elim
  · have ha := Crawl.Frontier.runF_active c evs Crawl.Frontier.initF
    rw [← hs] at ha
    rw [hact] at ha
    rw [show Crawl.Frontier.initF.active_workers = 0 from rfl] at ha
    omega
  · have hmin : Crawl.Frontier.heapMin? s.domain_heap = none := by
      rw [hheap]
      rfl
    rw [Crawl.Frontier.dequeueStep_eq_none c s now tRe hmin, if_pos hact]

namespace Crawl.Frontier

/-- A trace that runs to completion: one URL enqueued, dispatched and
completed. -/
def evs3 : List FEvent :=
  [.enqueue "http://a.edu/1" 0 0, .dequeue 10 10, .complete "http://a.edu/1"]

end Crawl.Frontier

/-- C2 witnessed at a concrete trace: after the crawl drains, the next
`get_tbd_url` iteration returns `Done`, and the queues are empty. -/
theorem C2_witness :
    (Crawl.Frontier.dequeueStep Crawl.Frontier.cex
        (Crawl.Frontier.runF Crawl.Frontier.cex Crawl.Frontier.initF
          Crawl.Frontier.evs3).1 11 11).2.1 = Crawl.Frontier.DqResult.done ∧
    (Crawl.Frontier.runF Crawl.Frontier.cex Crawl.Frontier.initF
      Crawl.Frontier.evs3).1.domain_queues = [] := by
  have h := C2_done_characterization Crawl.Frontier.cex Crawl.Frontier.evs3
    11 11 (by intro e he; fin_cases he <;> norm_num [Crawl.Frontier.evOK])
  have hdone := h.1.mpr ⟨by decide, by decide⟩
  exact ⟨hdone, (h.2 hdone).1⟩
